import Mathlib

/-!
Verification of the Krayon mini scene-command language
(`src/mini/mini_lang.hpp`) together with the `Vector4::normalize`
operation of `src/core/types.hpp`.

The repository ships the full inline implementations of the command
registry, the command context and the vector arithmetic; those are
embedded here directly from the source.  The bodies of the tokenizer,
the parser, the validator, the value converter and the executor are
declared in the header but their translation unit is not part of the
repository, so those operations are modelled from the specification
(each such definition carries a doc comment starting with
`Modelled from the spec:`).

Machine doubles are modelled as exact decimal numbers `m * 10^(-e)`
(an integer mantissa with a decimal exponent); every numeric literal of
the language denotes such a number exactly.  `Vector4`'s scalar field
is modelled as a real number.
-/

namespace Krayon

/-- The `MiniValue` variant (`std::variant<std::monostate, double,
std::string, bool>`): null, number, string, boolean.  A number is the
exact decimal `m * 10^(-e)`. -/
inductive MiniValue where
  | null : MiniValue
  | number (m : ℤ) (e : ℕ) : MiniValue
  | text (s : String) : MiniValue
  | boolean (b : Bool) : MiniValue
deriving DecidableEq

/-- Parameter definition for scene commands (`struct Parameter`). -/
structure Parameter where
  name : String
  type : String
  required : Bool := true
  default_value : MiniValue := MiniValue.null
  description : String := ""
deriving DecidableEq

/-- Result of command execution (`struct CommandResult`). -/
structure CommandResult where
  success : Bool := true
  message : String := ""
  return_value : MiniValue := MiniValue.null
deriving DecidableEq

/-- Lexicographic code-point comparison of character lists, written
with Nat comparison so that it evaluates inside the kernel. -/
def charListLt : List Char → List Char → Bool
  | [], [] => false
  | [], _ :: _ => true
  | _ :: _, [] => false
  | a :: as, b :: bs =>
    if a.toNat < b.toNat then true
    else if b.toNat < a.toNat then false
    else charListLt as bs

/-- `operator<` on `std::string` (the key order of `std::map`). -/
def strLt (a b : String) : Bool :=
  charListLt a.toList b.toList

theorem charListLt_irrefl (l : List Char) : charListLt l l = false := by
  induction l with
  | nil => rfl
  | cons a as ih => simp [charListLt, Nat.lt_irrefl, ih]

theorem charListLt_trans : ∀ (l1 l2 l3 : List Char),
    charListLt l1 l2 = true → charListLt l2 l3 = true →
      charListLt l1 l3 = true := by
  intro l1
  induction l1 with
  | nil =>
    intro l2 l3 h12 h23
    cases l2 with
    | nil => cases h12
    | cons b bs =>
      cases l3 with
      | nil => cases h23
      | cons c cs => rfl
  | cons a as ih =>
    intro l2 l3 h12 h23
    cases l2 with
    | nil => cases h12
    | cons b bs =>
      cases l3 with
      | nil => cases h23
      | cons c cs =>
        simp only [charListLt] at h12 h23 ⊢
        simp only [Char.toNat] at h12 h23 ⊢
        by_cases hab : a.val.toNat < b.val.toNat
        · by_cases hbc : b.val.toNat < c.val.toNat
          · rw [if_pos (by omega)]
          · by_cases hcb : c.val.toNat < b.val.toNat
            · rw [if_neg hbc, if_pos hcb] at h23
              cases h23
            · rw [if_pos (by omega)]
        · by_cases hba : b.val.toNat < a.val.toNat
          · rw [if_neg hab, if_pos hba] at h12
            cases h12
          · rw [if_neg hab, if_neg hba] at h12
            by_cases hbc : b.val.toNat < c.val.toNat
            · rw [if_pos (by omega)]
            · by_cases hcb : c.val.toNat < b.val.toNat
              · rw [if_neg hbc, if_pos hcb] at h23
                cases h23
              · rw [if_neg hbc, if_neg hcb] at h23
                rw [if_neg (show ¬a.val.toNat < c.val.toNat by omega),
                  if_neg (show ¬c.val.toNat < a.val.toNat by omega)]
                exact ih bs cs h12 h23

theorem charListLt_eq_of_not : ∀ (l1 l2 : List Char),
    charListLt l1 l2 = false → charListLt l2 l1 = false → l1 = l2 := by
  intro l1
  induction l1 with
  | nil =>
    intro l2 h12 _
    cases l2 with
    | nil => rfl
    | cons b bs => cases h12
  | cons a as ih =>
    intro l2 h12 h21
    cases l2 with
    | nil => cases h21
    | cons b bs =>
      simp only [charListLt] at h12 h21
      simp only [Char.toNat] at h12 h21
      by_cases hab : a.val.toNat < b.val.toNat
      · rw [if_pos hab] at h12
        cases h12
      · by_cases hba : b.val.toNat < a.val.toNat
        · rw [if_pos hba] at h21
          cases h21
        · rw [if_neg hab, if_neg hba] at h12
          rw [if_neg hba, if_neg hab] at h21
          have ha : a = b := Char.eq_of_val_eq (UInt32.toNat.inj (by omega))
          rw [ha, ih bs h12 h21]

theorem charListLt_asymm (l1 l2 : List Char)
    (h : charListLt l1 l2 = true) : charListLt l2 l1 = false := by
  cases hc : charListLt l2 l1
  · rfl
  · have hcontra := charListLt_trans l1 l2 l1 h hc
    rw [charListLt_irrefl] at hcontra
    cases hcontra

theorem strLt_irrefl (a : String) : strLt a a = false :=
  charListLt_irrefl _

theorem strLt_trans {a b c : String} (h1 : strLt a b = true)
    (h2 : strLt b c = true) : strLt a c = true :=
  charListLt_trans _ _ _ h1 h2

theorem strLt_eq_of_not (a b : String) (h1 : strLt a b = false)
    (h2 : strLt b a = false) : a = b := by
  have h := charListLt_eq_of_not _ _ h1 h2
  cases a
  cases b
  simp only [String.toList] at h
  exact congrArg String.mk h

theorem strLt_ne {a b : String} (h : strLt a b = true) : a ≠ b := by
  intro hEq
  rw [hEq, strLt_irrefl] at h
  cases h

theorem strLt_of_not {a b : String} (h1 : strLt a b = false) (h2 : a ≠ b) :
    strLt b a = true := by
  cases hc : strLt b a
  · exact absurd (strLt_eq_of_not a b h1 hc) h2
  · rfl

/-- Model of `std::map<std::string, α>`: an association list kept
sorted by key with unique keys.  `std::map::operator[]`-style insertion
replaces the value when the key is already present. -/
abbrev Smap (α : Type) : Type := List (String × α)

namespace Smap

/-- The empty map. -/
def empty {α : Type} : Smap α := []

/-- Lookup (`std::map::find`). -/
def find {α : Type} : Smap α → String → Option α
  | [], _ => none
  | (k, v) :: rest, n => if n = k then some v else find rest n

/-- Ordered insertion, replacing an existing binding
(`map[key] = value`). -/
def insert {α : Type} : Smap α → String → α → Smap α
  | [], k, v => [(k, v)]
  | (k2, v2) :: rest, k, v =>
    if strLt k k2 then (k, v) :: (k2, v2) :: rest
    else if k = k2 then (k, v) :: rest
    else (k2, v2) :: insert rest k v

/-- The keys, in map order (iteration over `std::map` collects keys in
increasing key order). -/
def keys {α : Type} (m : Smap α) : List String := m.map Prod.fst

/-- The sortedness invariant of the `std::map` model: keys strictly
increase. -/
def Sorted {α : Type} (m : Smap α) : Prop :=
  List.Pairwise (fun a b : String × α => strLt a.1 b.1 = true) m

theorem find_insert_self {α : Type} (m : Smap α) (k : String) (v : α) :
    find (insert m k v) k = some v := by
  induction m with
  | nil => simp [insert, find]
  | cons hd tl ih =>
    obtain ⟨k2, v2⟩ := hd
    by_cases h1 : strLt k k2 = true
    · simp [insert, h1, find]
    · simp only [Bool.not_eq_true] at h1
      by_cases h2 : k = k2
      · simp [insert, h1, h2, find, strLt_irrefl]
      · simp [insert, h1, h2, find, ih]

theorem find_insert_ne {α : Type} (m : Smap α) (k n : String) (v : α)
    (h : n ≠ k) : find (insert m k v) n = find m n := by
  induction m with
  | nil => simp [insert, find, h]
  | cons hd tl ih =>
    obtain ⟨k2, v2⟩ := hd
    by_cases h1 : strLt k k2 = true
    · simp [insert, h1, find, h]
    · simp only [Bool.not_eq_true] at h1
      by_cases h2 : k = k2
      · subst h2
        simp [insert, h1, find, h, strLt_irrefl]
      · by_cases h3 : n = k2 <;> simp [insert, h1, h2, find, h3, ih]

theorem mem_insert {α : Type} (m : Smap α) (k : String) (v : α)
    (b : String × α) (hb : b ∈ insert m k v) : b = (k, v) ∨ b ∈ m := by
  induction m with
  | nil =>
    simp only [insert, List.mem_singleton] at hb
    exact Or.inl hb
  | cons hd tl ih =>
    obtain ⟨k2, v2⟩ := hd
    simp only [insert] at hb
    by_cases h1 : strLt k k2 = true
    · rw [if_pos h1] at hb
      rcases List.mem_cons.mp hb with rfl | hb
      · exact Or.inl rfl
      · exact Or.inr hb
    · by_cases h2 : k = k2
      · rw [if_neg h1, if_pos h2] at hb
        rcases List.mem_cons.mp hb with rfl | hb
        · exact Or.inl rfl
        · exact Or.inr (List.mem_cons_of_mem _ hb)
      · rw [if_neg h1, if_neg h2] at hb
        rcases List.mem_cons.mp hb with rfl | hb
        · exact Or.inr (List.mem_cons_self _ _)
        · rcases ih hb with h3 | h3
          · exact Or.inl h3
          · exact Or.inr (List.mem_cons_of_mem _ h3)

theorem sorted_insert {α : Type} (m : Smap α) (k : String) (v : α)
    (h : Sorted m) : Sorted (insert m k v) := by
  induction m with
  | nil => simp [insert, Sorted]
  | cons hd tl ih =>
    obtain ⟨k2, v2⟩ := hd
    simp only [Sorted, List.pairwise_cons] at h
    by_cases h1 : strLt k k2 = true
    · simp only [insert, if_pos h1, Sorted, List.pairwise_cons]
      refine ⟨?_, ?_, ?_⟩
      · intro b hb
        rcases List.mem_cons.mp hb with rfl | hb
        · exact h1
        · exact strLt_trans h1 (h.1 b hb)
      · exact h.1
      · exact h.2
    · by_cases h2 : k = k2
      · subst h2
        have heq : insert ((k, v2) :: tl) k v = (k, v) :: tl := by
          simp [insert, if_neg h1]
        rw [heq]
        simp only [Sorted, List.pairwise_cons]
        exact h
      · have hk2 : strLt k2 k = true :=
          strLt_of_not (Bool.not_eq_true _ |>.mp h1) h2
        simp only [insert, if_neg h1, if_neg h2, Sorted, List.pairwise_cons]
        constructor
        · intro b hb
          rcases mem_insert tl k v b hb with rfl | hb
          · exact hk2
          · exact h.1 b hb
        · exact ih h.2

/-- Key-presence test in the map model (`m.find(name) != m.end()`),
written as a scan so that its agreement with `find` is a provable
fact rather than a definition. -/
def contains {α : Type} (m : Smap α) (n : String) : Bool :=
  m.any (fun kv => kv.1 == n)

theorem contains_iff_find_isSome {α : Type} (m : Smap α) (n : String) :
    contains m n = true ↔ (find m n).isSome = true := by
  induction m with
  | nil => simp [contains, find]
  | cons hd tl ih =>
    obtain ⟨k, v⟩ := hd
    by_cases h : n = k
    · subst h
      simp [contains, find]
    · have hk : (k == n) = false :=
        beq_eq_false_iff_ne.mpr (fun hkn => h hkn.symm)
      simp only [contains, List.any_cons, hk, Bool.false_or, find, if_neg h]
      exact ih

theorem mem_keys_iff_find_isSome {α : Type} (m : Smap α) (n : String) :
    n ∈ keys m ↔ (find m n).isSome = true := by
  induction m with
  | nil => simp [keys, find]
  | cons hd tl ih =>
    obtain ⟨k, v⟩ := hd
    by_cases h : n = k
    · subst h
      simp [keys, find]
    · rw [keys, List.map_cons, List.mem_cons,
        show find ((k, v) :: tl) n = find tl n from by simp [find, h]]
      simp only [h, false_or]
      exact ih

end Smap

/-- Context for command execution (`class CommandContext`): a variable
map plus an optional scene id.  The C++ member is named `variables`,
which is not a legal Lean field name, hence `vars`. -/
structure CommandContext where
  vars : Smap MiniValue := []
  scene_id : Option String := none
deriving DecidableEq

/-- `CommandContext::set_variable`: `variables[name] = value`. -/
def CommandContext.set_variable (ctx : CommandContext) (name : String)
    (value : MiniValue) : CommandContext :=
  { ctx with vars := ctx.vars.insert name value }

/-- `CommandContext::get_variable`. -/
def CommandContext.get_variable (ctx : CommandContext) (name : String) :
    Option MiniValue :=
  ctx.vars.find name

/-- `CommandContext::set_scene_id`. -/
def CommandContext.set_scene_id (ctx : CommandContext) (id : String) :
    CommandContext :=
  { ctx with scene_id := some id }

/-- A scene command handler (`class SceneCommand`): the capability set
name / description / parameter schema / execute.  `execute` receives the
argument map and the context and returns the result together with the
(possibly mutated) context. -/
structure SceneCommand where
  get_name : String
  get_description : String := ""
  get_parameters : List Parameter := []
  execute : Smap MiniValue → CommandContext → CommandResult × CommandContext

/-- Registry for scene commands (`class CommandRegistry`), a name-keyed
`std::map` of handlers. -/
structure CommandRegistry where
  commands : Smap SceneCommand := []

/-- `CommandRegistry::register_command`:
`commands[command->get_name()] = command`. -/
def CommandRegistry.register_command (r : CommandRegistry)
    (command : SceneCommand) : CommandRegistry :=
  ⟨r.commands.insert command.get_name command⟩

/-- `CommandRegistry::get_command`: map lookup, `nullptr` (here `none`)
when the name is absent. -/
def CommandRegistry.get_command (r : CommandRegistry) (name : String) :
    Option SceneCommand :=
  r.commands.find name

/-- `CommandRegistry::has_command`:
`commands.find(name) != commands.end()`. -/
def CommandRegistry.has_command (r : CommandRegistry) (name : String) : Bool :=
  Smap.contains r.commands name

/-- `CommandRegistry::get_all_commands`: collects `pair.first` over the
map in iteration (increasing key) order. -/
def CommandRegistry.get_all_commands (r : CommandRegistry) : List String :=
  r.commands.keys

/-- `CommandRegistry::clear`. -/
def CommandRegistry.clear (_ : CommandRegistry) : CommandRegistry := ⟨[]⟩

/-- A fresh registry (default-constructed `CommandRegistry`). -/
def CommandRegistry.emptyRegistry : CommandRegistry := ⟨[]⟩

/-- A sequence of `register_command` calls applied to a fresh
registry, in order. -/
def register_sequence (cs : List SceneCommand) : CommandRegistry :=
  cs.foldl CommandRegistry.register_command CommandRegistry.emptyRegistry

theorem register_sequence_append (cs : List SceneCommand) (c : SceneCommand) :
    register_sequence (cs ++ [c]) =
      (register_sequence cs).register_command c := by
  simp [register_sequence, List.foldl_append]

theorem sorted_register_fold (cs : List SceneCommand) (r : CommandRegistry)
    (h : Smap.Sorted r.commands) :
    Smap.Sorted (cs.foldl CommandRegistry.register_command r).commands := by
  induction cs generalizing r with
  | nil => exact h
  | cons hd tl ih =>
    exact ih _ (Smap.sorted_insert _ _ _ h)

namespace ValueConverter

/-- Modelled from the spec: `ValueConverter::get_type_name` (body not in
the repository) returns one of "null", "number", "string", "bool"
according to the variant tag. -/
def get_type_name : MiniValue → String
  | MiniValue.null => "null"
  | MiniValue.number _ _ => "number"
  | MiniValue.text _ => "string"
  | MiniValue.boolean _ => "bool"

/-- Modelled from the spec: `ValueConverter::matches_type` (body not in
the repository) — `"any"` accepts every variant, otherwise exact tag
equality. -/
def matches_type (value : MiniValue) (type : String) : Bool :=
  type == "any" || get_type_name value == type

end ValueConverter

/-- Real-valued model of `Vector4<T>` for floating-point `T`
(`src/core/types.hpp`). -/
structure Vector4 where
  x : ℝ
  y : ℝ
  z : ℝ
  w : ℝ

/-- `Vector4::lengthSquared`: `x*x + y*y + z*z + w*w`. -/
noncomputable def Vector4.lengthSquared (v : Vector4) : ℝ :=
  v.x * v.x + v.y * v.y + v.z * v.z + v.w * v.w

/-- `Vector4::length`: `std::sqrt(lengthSquared())`. -/
noncomputable def Vector4.length (v : Vector4) : ℝ :=
  Real.sqrt v.lengthSquared

/-- `Vector4::operator/(T scalar)`: componentwise division. -/
noncomputable def Vector4.divScalar (v : Vector4) (scalar : ℝ) : Vector4 :=
  ⟨v.x / scalar, v.y / scalar, v.z / scalar, v.w / scalar⟩

/-- `Vector4::normalize`: divide by the length only when it is
positive, otherwise return the vector unchanged. -/
noncomputable def Vector4.normalize (v : Vector4) : Vector4 :=
  let len := v.length
  if len > 0 then v.divScalar len else v

namespace Tokenizer

/-- `Tokenizer::TokenType` (the token set of `mini_lang.hpp`; `End` and
`String` are renamed `endTok` / `stringTok` to avoid Lean keywords and
the `String` type). -/
inductive TokenType where
  | endTok
  | identifier
  | number
  | stringTok
  | openParen
  | closeParen
  | openBrace
  | closeBrace
  | comma
  | colon
  | equals
  | semicolon
  | arrow
  | plus
  | minus
  | multiply
  | divide
  | keyword
deriving DecidableEq

/-- `Tokenizer::Token`: type tag, literal text, source offset. -/
structure Token where
  type : TokenType
  value : String
  position : Nat := 0
deriving DecidableEq

/-- `Tokenizer::is_digit` (Modelled from the spec: body not in the
repository): an ASCII decimal digit. -/
def is_digit (c : Char) : Bool :=
  48 ≤ c.toNat && c.toNat ≤ 57

/-- Modelled from the spec: an ASCII letter. -/
def is_alpha (c : Char) : Bool :=
  (65 ≤ c.toNat && c.toNat ≤ 90) || (97 ≤ c.toNat && c.toNat ≤ 122)

/-- Modelled from the spec: identifier-start characters (letter or
underscore). -/
def is_identifier_start (c : Char) : Bool :=
  is_alpha c || c = '_'

/-- `Tokenizer::is_identifier_char` (Modelled from the spec: body not
in the repository): letter, digit or underscore. -/
def is_identifier_char (c : Char) : Bool :=
  is_alpha c || is_digit c || c = '_'

/-- Modelled from the spec: insignificant whitespace. -/
def is_space (c : Char) : Bool :=
  c == ' ' || c == '\t' || c == '\n' || c == '\r'

/-- The reserved keyword set (`get_keyword_type`, modelled from the
spec: at minimum `true`, `false`, `null`). -/
def keywords : List String := ["true", "false", "null"]

/-- Modelled from the spec: string-literal scanning after the opening
quote.  `\"` is an escaped quote; any other character (a lone backslash
included) stands for itself; end of input before the closing quote is a
lexical error and yields no token.  On success, returns the literal's
content and the input after the closing quote. -/
def lexString : List Char → Option (List Char × List Char)
  | [] => none
  | [c] => if c = '"' then some ([], []) else none
  | c :: d :: cs =>
    if c = '"' then some ([], d :: cs)
    else if c = '\\' ∧ d = '"' then
      match lexString cs with
      | none => none
      | some (v, r) => some ('"' :: v, r)
    else
      match lexString (d :: cs) with
      | none => none
      | some (v, r) => some (c :: v, r)

/-- Modelled from the spec: number-literal scanning — a digit run with
an optional single decimal point that must be followed by at least one
digit.  Takes the input starting at the first digit; returns the
literal text and the rest of the input. -/
def lexNumber (l : List Char) : List Char × List Char :=
  let ds := l.takeWhile is_digit
  let r1 := l.dropWhile is_digit
  match r1 with
  | '.' :: d :: r2 =>
    if is_digit d then
      (ds ++ '.' :: (d :: r2).takeWhile is_digit, (d :: r2).dropWhile is_digit)
    else (ds, r1)
  | _ => (ds, r1)

/-- Modelled from the spec: one scanning step of `Tokenizer::tokenize`.
Given the current character, the remaining input and the character
offset, produce the token starting here — or no token for whitespace,
for an unrecognized character (skipped as insignificant) and for an
unterminated string (which discards the rest of the input) — together
with the remaining input. -/
def nextTok (c : Char) (cs : List Char) (pos : Nat) :
    Option Token × List Char :=
  if is_space c then (none, cs)
  else if is_identifier_start c then
    let text := c :: cs.takeWhile is_identifier_char
    let rest := cs.dropWhile is_identifier_char
    let s := String.mk text
    if keywords.contains s then (some ⟨TokenType.keyword, s, pos⟩, rest)
    else (some ⟨TokenType.identifier, s, pos⟩, rest)
  else if is_digit c then
    let p := lexNumber (c :: cs)
    (some ⟨TokenType.number, String.mk p.1, pos⟩, p.2)
  else if c = '-' then
    match cs with
    | '>' :: r => (some ⟨TokenType.arrow, "->", pos⟩, r)
    | d :: r =>
      if is_digit d then
        let p := lexNumber (d :: r)
        (some ⟨TokenType.number, String.mk ('-' :: p.1), pos⟩, p.2)
      else (some ⟨TokenType.minus, "-", pos⟩, cs)
    | [] => (some ⟨TokenType.minus, "-", pos⟩, cs)
  else if c = '"' then
    match lexString cs with
    | some (v, r) => (some ⟨TokenType.stringTok, String.mk v, pos⟩, r)
    | none => (none, [])
  else if c = '(' then (some ⟨TokenType.openParen, "(", pos⟩, cs)
  else if c = ')' then (some ⟨TokenType.closeParen, ")", pos⟩, cs)
  else if c = '{' then (some ⟨TokenType.openBrace, "\x7b", pos⟩, cs)
  else if c = '}' then (some ⟨TokenType.closeBrace, "\x7d", pos⟩, cs)
  else if c = ',' then (some ⟨TokenType.comma, ",", pos⟩, cs)
  else if c = ':' then (some ⟨TokenType.colon, ":", pos⟩, cs)
  else if c = '=' then (some ⟨TokenType.equals, "=", pos⟩, cs)
  else if c = ';' then (some ⟨TokenType.semicolon, ";", pos⟩, cs)
  else if c = '+' then (some ⟨TokenType.plus, "+", pos⟩, cs)
  else if c = '*' then (some ⟨TokenType.multiply, "*", pos⟩, cs)
  else if c = '/' then (some ⟨TokenType.divide, "/", pos⟩, cs)
  else (none, cs)

/-- Modelled from the spec: the scanning loop of `Tokenizer::tokenize`
with explicit fuel.  Any fuel exceeding the input length yields the
full scan (`tokenizeFuel_stable`); `scan` supplies such fuel. -/
def tokenizeFuel : Nat → List Char → Nat → List Token
  | 0, _, _ => []
  | _ + 1, [], _ => []
  | fuel + 1, c :: cs, pos =>
    match nextTok c cs pos with
    | (some t, rest) =>
      t :: tokenizeFuel fuel rest (pos + 1 + (cs.length - rest.length))
    | (none, rest) => tokenizeFuel fuel rest (pos + 1 + (cs.length - rest.length))

/-- The full scan of a character list starting at a given offset. -/
def scan (l : List Char) (pos : Nat) : List Token :=
  tokenizeFuel (l.length + 1) l pos

/-- `Tokenizer::tokenize` (Modelled from the spec: body not in the
repository): the full scan, terminated by a single End token. -/
def tokenize (input : String) : List Token :=
  scan input.toList 0 ++ [⟨TokenType.endTok, "", input.toList.length⟩]

end Tokenizer

open Tokenizer in
/-- `MiniLangParser::ParsedCommand`: command name, argument map,
validity flag. -/
structure ParsedCommand where
  command_name : String := ""
  parameters : Smap MiniValue := []
  valid : Bool := false
deriving DecidableEq

/-- The numeric value of an ASCII digit. -/
def digit_val (c : Char) : ℕ := c.toNat - 48

/-- The natural number denoted by a big-endian digit run. -/
def digitsToNat (l : List Char) : ℕ :=
  l.foldl (fun a c => 10 * a + digit_val c) 0

/-- Modelled from the spec: the exact decimal denoted by an unsigned
number literal `digits(.digits)?` — the mantissa and the count of
fractional digits. -/
def parseDecimal (l : List Char) : ℤ × ℕ :=
  let ds := l.takeWhile Tokenizer.is_digit
  match l.dropWhile Tokenizer.is_digit with
  | '.' :: fs => ((digitsToNat (ds ++ fs) : ℤ), fs.length)
  | _ => ((digitsToNat ds : ℤ), 0)

/-- Modelled from the spec: `MiniLangParser::parse_number` — the value
of a (possibly negative) number literal, as an exact decimal. -/
def parseNumberValue (l : List Char) : MiniValue :=
  match l with
  | '-' :: rest =>
    let p := parseDecimal rest
    MiniValue.number (-p.1) p.2
  | _ =>
    let p := parseDecimal l
    MiniValue.number p.1 p.2

/-- Modelled from the spec: `MiniLangParser::parse_value` — a value is
a number literal, a string literal, or one of the keywords `true`,
`false`, `null`. -/
def parse_value (t : Tokenizer.Token) : Option MiniValue :=
  match t.type with
  | Tokenizer.TokenType.number => some (parseNumberValue t.value.toList)
  | Tokenizer.TokenType.stringTok => some (MiniValue.text t.value)
  | Tokenizer.TokenType.keyword =>
    if t.value = "true" then some (MiniValue.boolean true)
    else if t.value = "false" then some (MiniValue.boolean false)
    else if t.value = "null" then some MiniValue.null
    else none
  | _ => none

/-- Modelled from the spec: the argument-list loop of the parser, from
the first argument on — `Identifier ':' value` groups separated by
commas and closed by `')'` at the very end of the segment.  The
accumulator is the argument map built so far. -/
def parseArgs : List Tokenizer.Token → Smap MiniValue →
    Option (Smap MiniValue)
  | ⟨Tokenizer.TokenType.identifier, key, _⟩ ::
      ⟨Tokenizer.TokenType.colon, _, _⟩ :: vtok :: rest, acc =>
    match parse_value vtok with
    | none => none
    | some v =>
      match rest with
      | ⟨Tokenizer.TokenType.closeParen, _, _⟩ :: rest2 =>
        if rest2 = [] then some (acc.insert key v) else none
      | ⟨Tokenizer.TokenType.comma, _, _⟩ :: rest2 =>
        parseArgs rest2 (acc.insert key v)
      | _ => none
  | _, _ => none

/-- Modelled from the spec: parse one command from the tokens of one
segment — `Identifier '(' arglist? ')'`.  Any deviation yields an
invalid structured command with an empty argument map. -/
def parseCommandTokens : List Tokenizer.Token → ParsedCommand
  | ⟨Tokenizer.TokenType.identifier, name, _⟩ ::
      ⟨Tokenizer.TokenType.openParen, _, _⟩ :: rest =>
    match rest with
    | ⟨Tokenizer.TokenType.closeParen, _, _⟩ :: rest2 =>
      if rest2 = [] then ⟨name, [], true⟩ else ⟨name, [], false⟩
    | _ =>
      match parseArgs rest [] with
      | some args => ⟨name, args, true⟩
      | none => ⟨name, [], false⟩
  | _ => ⟨"", [], false⟩

/-- Drop the terminating End token(s) before splitting into command
segments. -/
def nonEndTokens (ts : List Tokenizer.Token) : List Tokenizer.Token :=
  ts.filter (fun t => t.type ≠ Tokenizer.TokenType.endTok)

/-- Split a token list on top-level semicolon tokens. -/
def splitSemi : List Tokenizer.Token → List (List Tokenizer.Token)
  | [] => [[]]
  | t :: ts =>
    if t.type = Tokenizer.TokenType.semicolon then [] :: splitSemi ts
    else
      match splitSemi ts with
      | [] => [[t]]
      | seg :: segs => (t :: seg) :: segs

/-- The nonempty command segments of an input (Modelled from the spec:
`commands := command (';' command)* ';'?`, zero-length segments such as
a trailing semicolon are skipped). -/
def segments (input : String) : List (List Tokenizer.Token) :=
  (splitSemi (nonEndTokens (Tokenizer.tokenize input))).filter
    (fun seg => !seg.isEmpty)

/-- `MiniLangParser::parse_commands` (Modelled from the spec: body not
in the repository): one structured command per segment, in source
order. -/
def parse_commands (input : String) : List ParsedCommand :=
  (segments input).map parseCommandTokens

/-- `MiniLangParser::parse_command` (Modelled from the spec: body not
in the repository): parse exactly one command line; an input holding
zero or several commands is invalid. -/
def parse_command (input : String) : ParsedCommand :=
  match segments input with
  | [ts] => parseCommandTokens ts
  | _ => ⟨"", [], false⟩

/-- The violation messages for missing required parameters. -/
def missing_violations (params : List Parameter) (args : Smap MiniValue) :
    List String :=
  (params.filter (fun p => p.required && (Smap.find args p.name).isNone)).map
    (fun p => "Missing required parameter: " ++ p.name)

/-- The violation messages for type mismatches of supplied values. -/
def mismatch_violations (params : List Parameter) (args : Smap MiniValue) :
    List String :=
  params.filterMap (fun p =>
    match Smap.find args p.name with
    | some v =>
      if ValueConverter.matches_type v p.type then none
      else some ("Invalid type for parameter: " ++ p.name)
    | none => none)

/-- The violation messages for supplied keys that are not declared. -/
def unknown_violations (params : List Parameter) (args : Smap MiniValue) :
    List String :=
  (args.filter (fun kv => !params.any (fun p => p.name == kv.1))).map
    (fun kv => "Unknown parameter: " ++ kv.1)

/-- All validation violations, in schema-walk order. -/
def validation_violations (params : List Parameter) (args : Smap MiniValue) :
    List String :=
  missing_violations params args ++ mismatch_violations params args ++
    unknown_violations params args

/-- Semicolon-joined message text. -/
def joinSemi : List String → String
  | [] => ""
  | [s] => s
  | s :: rest => s ++ "; " ++ joinSemi rest

/-- `SceneCommand::validate_parameters` (Modelled from the spec: body
not in the repository): walk the declared schema recording missing
required parameters and type mismatches, then record every supplied
key not in the schema; aggregate all violations into one failing
result whose message enumerates every one of them. -/
def validate_parameters (params : List Parameter) (args : Smap MiniValue) :
    CommandResult :=
  let errs := validation_violations params args
  if errs.isEmpty then ⟨true, "", MiniValue.null⟩
  else ⟨false, joinSemi errs, MiniValue.null⟩

/-- Modelled from the spec: the Executor substitutes declared defaults
for omitted optional parameters immediately before dispatch. -/
def fill_defaults (params : List Parameter) (args : Smap MiniValue) :
    Smap MiniValue :=
  params.foldl
    (fun acc p =>
      match Smap.find acc p.name with
      | some _ => acc
      | none => if p.required then acc else acc.insert p.name p.default_value)
    args

/-- `MiniLangExecutor::execute_parsed` (Modelled from the spec: body
not in the repository): reject an invalid parse, look the command name
up in the registry, validate the arguments, substitute defaults and
dispatch to the handler. -/
def execute_parsed (registry : CommandRegistry) (parsed : ParsedCommand)
    (context : CommandContext) : CommandResult × CommandContext :=
  if parsed.valid = false then
    (⟨false, "Parse error", MiniValue.null⟩, context)
  else
    match registry.get_command parsed.command_name with
    | none =>
      (⟨false, "Unknown command: " ++ parsed.command_name, MiniValue.null⟩,
        context)
    | some cmd =>
      let vres := validate_parameters cmd.get_parameters parsed.parameters
      if vres.success = false then (vres, context)
      else cmd.execute (fill_defaults cmd.get_parameters parsed.parameters)
        context

/-- The batch loop: execute each parsed command in order, threading the
context, collecting one result per command with no early abort. -/
def execute_parsed_list (registry : CommandRegistry) :
    List ParsedCommand → CommandContext →
      List CommandResult × CommandContext
  | [], context => ([], context)
  | p :: ps, context =>
    let r := execute_parsed registry p context
    let rest := execute_parsed_list registry ps r.2
    (r.1 :: rest.1, rest.2)

/-- `MiniLangExecutor::execute_batch` (Modelled from the spec: body not
in the repository): split the input with the multi-command grammar and
run the full pipeline per segment sequentially. -/
def execute_batch (registry : CommandRegistry) (input : String)
    (context : CommandContext) : List CommandResult × CommandContext :=
  execute_parsed_list registry (parse_commands input) context

/-- The context after executing a prefix of a batch. -/
def context_after (registry : CommandRegistry) (ps : List ParsedCommand)
    (context : CommandContext) : CommandContext :=
  ps.foldl (fun c p => (execute_parsed registry p c).2) context

/-- Escape a string value for the wire format: each quote becomes an
escaped quote. -/
def escape_chars (l : List Char) : List Char :=
  l.foldr (fun c acc => if c = '"' then '\\' :: '"' :: acc else c :: acc) []

/-- The big-endian decimal digit characters of a natural number. -/
def nat_digit_chars (n : ℕ) : List Char :=
  if n = 0 then ['0'] else (Nat.digits 10 n).reverse.map Nat.digitChar

/-- The literal text of the exact decimal `m * 10^(-e)`: the mantissa
digits padded to at least `e + 1` digits, with a decimal point before
the last `e` of them when `e` is positive. -/
def format_number (m : ℤ) (e : ℕ) : List Char :=
  let ds := nat_digit_chars m.natAbs
  let padded := List.replicate (e + 1 - ds.length) '0' ++ ds
  let signPart : List Char := if m < 0 then ['-'] else []
  if e = 0 then signPart ++ padded
  else
    signPart ++ padded.take (padded.length - e) ++
      '.' :: padded.drop (padded.length - e)

/-- Modelled from the spec: format one value in the wire format of §6 —
number literal, quoted string with escaped quotes, `true`/`false`/
`null`. -/
def format_value : MiniValue → List Char
  | MiniValue.null => "null".toList
  | MiniValue.boolean true => "true".toList
  | MiniValue.boolean false => "false".toList
  | MiniValue.number m e => format_number m e
  | MiniValue.text s => '"' :: (escape_chars s.toList ++ ['"'])

/-- The formatted argument list, `key: value` groups joined by
`", "`. -/
def format_args : Smap MiniValue → List Char
  | [] => []
  | [(k, v)] => k.toList ++ ':' :: ' ' :: format_value v
  | (k, v) :: rest =>
    k.toList ++ ':' :: ' ' :: format_value v ++ ',' :: ' ' :: format_args rest

/-- Modelled from the spec: format a structured command back to command
text (`identifier(name: value, ...)`, the wire format of §6; the
repository declares no formatter, this is the format the round-trip
property of §8 speaks about). -/
def format_command (c : ParsedCommand) : String :=
  String.mk (c.command_name.toList ++ '(' :: (format_args c.parameters ++ [')']))

theorem parseCommandTokens_shape (ts : List Tokenizer.Token) :
    (parseCommandTokens ts).valid = true ∨
      (parseCommandTokens ts).parameters = [] := by
  unfold parseCommandTokens
  split
  · split
    · split
      · exact Or.inl rfl
      · exact Or.inr rfl
    · split
      · exact Or.inl rfl
      · exact Or.inr rfl
  · exact Or.inr rfl

theorem execute_parsed_list_spec (registry : CommandRegistry)
    (ps : List ParsedCommand) (context : CommandContext) :
    (execute_parsed_list registry ps context).1.length = ps.length ∧
      (execute_parsed_list registry ps context).2 =
        context_after registry ps context ∧
      ∀ i, i < ps.length →
        ∃ p, ps[i]? = some p ∧
          (execute_parsed_list registry ps context).1[i]? =
            some (execute_parsed registry p
              (context_after registry (ps.take i) context)).1 := by
  induction ps generalizing context with
  | nil =>
    refine ⟨rfl, rfl, ?_⟩
    intro i hi
    exact absurd hi (Nat.not_lt_zero i)
  | cons p ps ih =>
    obtain ⟨ihlen, ihctx, ihidx⟩ :=
      ih (execute_parsed registry p context).2
    refine ⟨?_, ?_, ?_⟩
    · simp only [execute_parsed_list, List.length_cons, ihlen]
    · simp only [execute_parsed_list, ihctx, context_after, List.foldl_cons]
    · intro i hi
      match i with
      | 0 =>
        refine ⟨p, by simp, ?_⟩
        simp only [execute_parsed_list, List.getElem?_cons_zero,
          Option.some.injEq]
        rfl
      | i + 1 =>
        obtain ⟨q, hq1, hq2⟩ := ihidx i (by
          simpa using Nat.lt_of_succ_lt_succ hi)
        refine ⟨q, ?_, ?_⟩
        · simpa using hq1
        · simp only [execute_parsed_list, List.getElem?_cons_succ]
          rw [hq2]
          simp only [List.take_succ_cons, context_after, List.foldl_cons]

/-- C1: a batch yields one result per parsed command, in input order;
a failing command never prevents later commands from running (every
index below the parsed count carries a result), and each command runs
in the context produced by the commands before it. -/
theorem execute_batch_per_command (registry : CommandRegistry)
    (input : String) (context : CommandContext) :
    (execute_batch registry input context).1.length =
        (parse_commands input).length ∧
      (execute_batch registry input context).2 =
        context_after registry (parse_commands input) context ∧
      ∀ i, i < (parse_commands input).length →
        ∃ p, (parse_commands input)[i]? = some p ∧
          (execute_batch registry input context).1[i]? =
            some (execute_parsed registry p
              (context_after registry ((parse_commands input).take i)
                context)).1 :=
  execute_parsed_list_spec registry (parse_commands input) context

/-- A handler used by the batch witness: sets the context variable
named by its `name` argument (execute bodies are not part of the
repository, this is a test fixture). -/
def set_value_handler : SceneCommand where
  get_name := "setv"
  get_description := "Set a context variable"
  get_parameters := [⟨"name", "string", true, MiniValue.null, ""⟩,
    ⟨"val", "any", true, MiniValue.null, ""⟩]
  execute := fun args context =>
    match Smap.find args "name", Smap.find args "val" with
    | some (MiniValue.text n), some v =>
      (⟨true, "", v⟩, context.set_variable n v)
    | _, _ => (⟨false, "bad args", MiniValue.null⟩, context)

/-- C1 witness: a two-command batch whose first command is malformed
still carries a result at index 1, computed in the threaded context. -/
theorem execute_batch_per_command_witness :
    1 < (parse_commands "setv(name 1); setv(name: \"x\", val: 2)").length ∧
      ∃ p, (parse_commands "setv(name 1); setv(name: \"x\", val: 2)")[1]? =
          some p ∧
        (execute_batch (register_sequence [set_value_handler])
              "setv(name 1); setv(name: \"x\", val: 2)" {}).1[1]? =
          some (execute_parsed (register_sequence [set_value_handler]) p
            (context_after (register_sequence [set_value_handler])
              ((parse_commands
                "setv(name 1); setv(name: \"x\", val: 2)").take 1) {})).1 :=
  ⟨by decide,
    (execute_batch_per_command (register_sequence [set_value_handler])
      "setv(name 1); setv(name: \"x\", val: 2)" {}).2.2 1 (by decide)⟩

/-- C8: an empty input to batch execution yields an empty result
sequence (and an unchanged context). -/
theorem execute_batch_empty (registry : CommandRegistry)
    (context : CommandContext) :
    execute_batch registry "" context = ([], context) := rfl

/-- C4: an invalid parse always carries an empty parameter map, and
each grammar deviation — a missing parenthesis, a missing colon inside
an argument, a value that is not a recognized literal — yields an
invalid structured command instead of an abort. -/
theorem parse_invalid_empty_params :
    (∀ input : String, (parse_command input).valid = false →
        (parse_command input).parameters = []) ∧
      (parse_command "foo(x: 1").valid = false ∧
      (parse_command "foo(x 1)").valid = false ∧
      (parse_command "foo(x: bar)").valid = false := by
  refine ⟨?_, by decide, by decide, by decide⟩
  intro input h
  rcases hseg : segments input with _ | ⟨ts, _ | ⟨ts2, rest⟩⟩
  · simp [parse_command, hseg]
  · simp only [parse_command, hseg] at h ⊢
    rcases parseCommandTokens_shape ts with hv | hp
    · rw [hv] at h
      exact Bool.noConfusion h
    · exact hp
  · simp [parse_command, hseg]

/-- C4 witness: a concrete malformed input (missing closing
parenthesis) parses invalid, and the universal part then yields its
empty parameter map. -/
theorem parse_invalid_empty_params_witness :
    (parse_command "foo(x: 1").valid = false ∧
      (parse_command "foo(x: 1").parameters = [] :=
  ⟨by decide, parse_invalid_empty_params.1 "foo(x: 1" (by decide)⟩

theorem toList_append (a b : String) : (a ++ b).toList = a.toList ++ b.toList :=
  rfl

theorem joinSemi_contains (l : List String) (s : String) (h : s ∈ l) :
    ∃ pre post : List Char,
      (joinSemi l).toList = pre ++ s.toList ++ post := by
  induction l with
  | nil => cases h
  | cons a rest ih =>
    cases rest with
    | nil =>
      rcases List.mem_singleton.mp h with rfl
      exact ⟨[], [], by simp [joinSemi]⟩
    | cons b rest2 =>
      rcases List.mem_cons.mp h with rfl | h2
      · refine ⟨[], ("; " ++ joinSemi (b :: rest2)).toList, ?_⟩
        simp [joinSemi, toList_append]
      · obtain ⟨pre, post, hp⟩ := ih h2
        refine ⟨a.toList ++ "; ".toList ++ pre, post, ?_⟩
        have hj : joinSemi (a :: b :: rest2) = a ++ "; " ++ joinSemi (b :: rest2) :=
          rfl
        rw [hj, toList_append, toList_append, hp]
        simp [List.append_assoc]

theorem validate_fails_iff_violations (params : List Parameter)
    (args : Smap MiniValue) :
    (validate_parameters params args).success = false ↔
      validation_violations params args ≠ [] := by
  unfold validate_parameters
  by_cases h : (validation_violations params args).isEmpty
  · simp [h, List.isEmpty_iff.mp h]
  · have : validation_violations params args ≠ [] := by
      intro hc
      rw [hc] at h
      exact h rfl
    simp [h, this]

theorem validate_message_of_mem (params : List Parameter)
    (args : Smap MiniValue) (s : String)
    (h : s ∈ validation_violations params args) :
    ∃ pre post : List Char,
      (validate_parameters params args).message.toList =
        pre ++ s.toList ++ post := by
  have hne : ¬(validation_violations params args).isEmpty = true := by
    intro hc
    rw [List.isEmpty_iff.mp hc] at h
    cases h
  unfold validate_parameters
  simp only [hne, Bool.false_eq_true, if_false]
  exact joinSemi_contains _ s h

/-- C2: validation fails exactly when a required parameter is absent, a
supplied value's tag mismatches its declared type ("any" accepts every
variant), or a supplied key is undeclared — and the failing result's
message names every violation of each kind, not only the first. -/
theorem validate_parameters_characterization (params : List Parameter)
    (args : Smap MiniValue) :
    ((validate_parameters params args).success = false ↔
      (∃ p ∈ params, p.required = true ∧ Smap.find args p.name = none) ∨
      (∃ p ∈ params, ∃ v, Smap.find args p.name = some v ∧
        ValueConverter.matches_type v p.type = false) ∨
      (∃ kv ∈ args, ∀ p ∈ params, p.name ≠ kv.1)) ∧
    (∀ p ∈ params, p.required = true → Smap.find args p.name = none →
      ∃ pre post : List Char,
        (validate_parameters params args).message.toList =
          pre ++ ("Missing required parameter: " ++ p.name).toList ++ post) ∧
    (∀ p ∈ params, ∀ v, Smap.find args p.name = some v →
      ValueConverter.matches_type v p.type = false →
      ∃ pre post : List Char,
        (validate_parameters params args).message.toList =
          pre ++ ("Invalid type for parameter: " ++ p.name).toList ++ post) ∧
    (∀ kv ∈ args, (∀ p ∈ params, p.name ≠ kv.1) →
      ∃ pre post : List Char,
        (validate_parameters params args).message.toList =
          pre ++ ("Unknown parameter: " ++ kv.1).toList ++ post) := by
  refine ⟨?_, ?_, ?_, ?_⟩
  · rw [validate_fails_iff_violations]
    have h1 : missing_violations params args ≠ [] ↔
        ∃ p ∈ params, p.required = true ∧ Smap.find args p.name = none := by
      rw [missing_violations]
      constructor
      · intro h
        obtain ⟨s, hs⟩ := List.exists_mem_of_ne_nil _ h
        obtain ⟨p, hpf, _⟩ := List.mem_map.mp hs
        obtain ⟨hpmem, hpc⟩ := List.mem_filter.mp hpf
        rw [Bool.and_eq_true, Option.isNone_iff_eq_none] at hpc
        exact ⟨p, hpmem, hpc.1, hpc.2⟩
      · rintro ⟨p, hp, hr, hn⟩
        apply List.ne_nil_of_mem
          (a := "Missing required parameter: " ++ p.name)
        refine List.mem_map.mpr ⟨p, List.mem_filter.mpr ⟨hp, ?_⟩, rfl⟩
        rw [hr, hn]
        rfl
    have h2 : mismatch_violations params args ≠ [] ↔
        ∃ p ∈ params, ∃ v, Smap.find args p.name = some v ∧
          ValueConverter.matches_type v p.type = false := by
      rw [mismatch_violations]
      constructor
      · intro h
        obtain ⟨s, hs⟩ := List.exists_mem_of_ne_nil _ h
        obtain ⟨p, hpmem, hpf⟩ := List.mem_filterMap.mp hs
        rcases hfind : Smap.find args p.name with _ | v
        · rw [hfind] at hpf
          simp at hpf
        · rw [hfind] at hpf
          by_cases hmt : ValueConverter.matches_type v p.type = true
          · simp [hmt] at hpf
          · exact ⟨p, hpmem, v, hfind, Bool.eq_false_iff.mpr hmt⟩
      · rintro ⟨p, hp, v, hv, hmis⟩
        apply List.ne_nil_of_mem (a := "Invalid type for parameter: " ++ p.name)
        refine List.mem_filterMap.mpr ⟨p, hp, ?_⟩
        rw [hv]
        simp [hmis]
    have h3 : unknown_violations params args ≠ [] ↔
        ∃ kv ∈ args, ∀ p ∈ params, p.name ≠ kv.1 := by
      rw [unknown_violations]
      constructor
      · intro h
        obtain ⟨s, hs⟩ := List.exists_mem_of_ne_nil _ h
        obtain ⟨kv, hkf, _⟩ := List.mem_map.mp hs
        obtain ⟨hkmem, hkc⟩ := List.mem_filter.mp hkf
        refine ⟨kv, hkmem, fun p hp hEq => ?_⟩
        simp only [Bool.not_eq_eq_eq_not, Bool.not_true, List.any_eq_false] at hkc
        exact hkc p hp (beq_iff_eq.mpr hEq)
      · rintro ⟨kv, hkv, hunk⟩
        apply List.ne_nil_of_mem (a := "Unknown parameter: " ++ kv.1)
        refine List.mem_map.mpr ⟨kv, List.mem_filter.mpr ⟨hkv, ?_⟩, rfl⟩
        simp only [Bool.not_eq_eq_eq_not, Bool.not_true, List.any_eq_false]
        exact fun p hp hb => hunk p hp (beq_iff_eq.mp hb)
    rw [validation_violations]
    constructor
    · intro h
      by_contra hall
      rw [not_or, not_or] at hall
      obtain ⟨hna, hnb, hnc⟩ := hall
      have e1 : missing_violations params args = [] := by
        by_contra hne
        exact hna (h1.mp hne)
      have e2 : mismatch_violations params args = [] := by
        by_contra hne
        exact hnb (h2.mp hne)
      have e3 : unknown_violations params args = [] := by
        by_contra hne
        exact hnc (h3.mp hne)
      rw [e1, e2, e3] at h
      exact h rfl
    · intro h
      intro hc
      rw [List.append_eq_nil, List.append_eq_nil] at hc
      rcases h with h | h | h
      · exact (h1.mpr h) hc.1.1
      · exact (h2.mpr h) hc.1.2
      · exact (h3.mpr h) hc.2
  · intro p hp hreq hnone
    apply validate_message_of_mem
    rw [validation_violations]
    apply List.mem_append_left
    apply List.mem_append_left
    rw [missing_violations]
    refine List.mem_map.mpr ⟨p, ?_, rfl⟩
    refine List.mem_filter.mpr ⟨hp, ?_⟩
    rw [hreq, hnone]
    rfl
  · intro p hp v hv hmis
    apply validate_message_of_mem
    rw [validation_violations]
    apply List.mem_append_left
    apply List.mem_append_right
    rw [mismatch_violations]
    refine List.mem_filterMap.mpr ⟨p, hp, ?_⟩
    rw [hv]
    simp [hmis]
  · intro kv hkv hunk
    apply validate_message_of_mem
    rw [validation_violations]
    apply List.mem_append_right
    rw [unknown_violations]
    refine List.mem_map.mpr ⟨kv, ?_, rfl⟩
    refine List.mem_filter.mpr ⟨hkv, ?_⟩
    simp only [Bool.not_eq_eq_eq_not, Bool.not_true, List.any_eq_false]
    exact fun p hp hb => hunk p hp (beq_iff_eq.mp hb)

namespace builtin_commands

/-- `builtin_commands::CreateElementCommand::get_parameters` (from the
source): required string parameters `type` and `name`, optional number
parameters `x` and `y` defaulting to `0.0`. -/
def create_element_parameters : List Parameter :=
  [⟨"type", "string", true, MiniValue.null, "Element type"⟩,
   ⟨"name", "string", true, MiniValue.null, "Element name"⟩,
   ⟨"x", "number", false, MiniValue.number 0 1, "X coordinate"⟩,
   ⟨"y", "number", false, MiniValue.number 0 1, "Y coordinate"⟩]

/-- `builtin_commands::CreateElementCommand` with its declared schema;
the execute body is not part of the repository, so it is a trivial
fixture here. -/
def create_element_handler : SceneCommand where
  get_name := "create_element"
  get_description := "Create a new scene element"
  get_parameters := create_element_parameters
  execute := fun _ context => (⟨true, "", MiniValue.null⟩, context)

end builtin_commands

/-- C2 witness: validating `create_element` arguments that omit the
required `type` names that violation inside the failing message. -/
theorem validate_parameters_characterization_witness :
    ((⟨"type", "string", true, MiniValue.null, "Element type"⟩ : Parameter) ∈
        builtin_commands.create_element_parameters ∧
      (⟨"type", "string", true, MiniValue.null,
          "Element type"⟩ : Parameter).required = true ∧
      Smap.find [("x", MiniValue.number 1 0), ("zzz", MiniValue.boolean true)]
        (⟨"type", "string", true, MiniValue.null,
          "Element type"⟩ : Parameter).name = none) ∧
    ∃ pre post : List Char,
      (validate_parameters builtin_commands.create_element_parameters
          [("x", MiniValue.number 1 0),
            ("zzz", MiniValue.boolean true)]).message.toList =
        pre ++ ("Missing required parameter: " ++
          (⟨"type", "string", true, MiniValue.null,
            "Element type"⟩ : Parameter).name).toList ++ post :=
  ⟨⟨by decide, by decide, by decide⟩,
    (validate_parameters_characterization
        builtin_commands.create_element_parameters
        [("x", MiniValue.number 1 0), ("zzz", MiniValue.boolean true)]).2.1
      ⟨"type", "string", true, MiniValue.null, "Element type"⟩ (by decide)
      (by decide) (by decide)⟩

theorem fill_defaults_find_some (params : List Parameter)
    (args : Smap MiniValue) (n : String) (v : MiniValue)
    (h : Smap.find args n = some v) :
    Smap.find (fill_defaults params args) n = some v := by
  induction params generalizing args with
  | nil => exact h
  | cons q tl ih =>
    have hstep : fill_defaults (q :: tl) args =
        fill_defaults tl
          (match Smap.find args q.name with
           | some _ => args
           | none =>
             if q.required then args else args.insert q.name q.default_value) :=
      rfl
    rw [hstep]
    rcases hf : Smap.find args q.name with _ | w
    · simp only [hf]
      by_cases hr : q.required = true
      · rw [if_pos hr]
        exact ih args h
      · rw [if_neg hr]
        by_cases hn : q.name = n
        · subst hn
          rw [hf] at h
          cases h
        · apply ih
          rw [Smap.find_insert_ne args q.name n q.default_value
            (fun hEq => hn hEq.symm)]
          exact h
    · simp only [hf]
      exact ih args h

theorem fill_defaults_find_default (params : List Parameter)
    (args : Smap MiniValue) (p : Parameter)
    (hnd : (params.map Parameter.name).Nodup) (hp : p ∈ params)
    (hreq : p.required = false) (hnone : Smap.find args p.name = none) :
    Smap.find (fill_defaults params args) p.name = some p.default_value := by
  induction params generalizing args with
  | nil => cases hp
  | cons q tl ih =>
    have hstep : fill_defaults (q :: tl) args =
        fill_defaults tl
          (match Smap.find args q.name with
           | some _ => args
           | none =>
             if q.required then args else args.insert q.name q.default_value) :=
      rfl
    rw [hstep]
    rcases List.mem_cons.mp hp with rfl | hptl
    · rw [hnone]
      simp only [hreq, if_false, Bool.false_eq_true]
      exact fill_defaults_find_some tl _ p.name p.default_value
        (Smap.find_insert_self args p.name p.default_value)
    · have hqp : q.name ≠ p.name := by
        intro hEq
        rw [List.map_cons, List.nodup_cons] at hnd
        exact hnd.1 (hEq ▸ List.mem_map.mpr ⟨p, hptl, rfl⟩)
      have hndtl : (tl.map Parameter.name).Nodup := by
        rw [List.map_cons, List.nodup_cons] at hnd
        exact hnd.2
      rcases hf : Smap.find args q.name with _ | w
      · simp only [hf]
        by_cases hr : q.required = true
        · rw [if_pos hr]
          exact ih _ hndtl hptl hnone
        · rw [if_neg hr]
          apply ih _ hndtl hptl
          rw [Smap.find_insert_ne args q.name p.name q.default_value
            (fun hEq => hqp hEq.symm)]
          exact hnone
      · simp only [hf]
        exact ih _ hndtl hptl hnone

/-- C5: once a parsed command reaches dispatch (valid, registered,
validated), the executor hands the handler the argument map with every
declared default substituted — each optional parameter is present,
bound to the caller's value when supplied and to the declared default
otherwise. -/
theorem executor_fills_defaults (registry : CommandRegistry)
    (parsed : ParsedCommand) (context : CommandContext) (cmd : SceneCommand)
    (hvalid : parsed.valid = true)
    (hcmd : registry.get_command parsed.command_name = some cmd)
    (hok : (validate_parameters cmd.get_parameters
      parsed.parameters).success = true)
    (hnd : (cmd.get_parameters.map Parameter.name).Nodup) :
    execute_parsed registry parsed context =
        cmd.execute (fill_defaults cmd.get_parameters parsed.parameters)
          context ∧
      ∀ p ∈ cmd.get_parameters, p.required = false →
        Smap.find (fill_defaults cmd.get_parameters parsed.parameters)
            p.name =
          some ((Smap.find parsed.parameters p.name).getD p.default_value) := by
  constructor
  · rw [execute_parsed]
    simp only [hvalid, hcmd, hok]
    simp
  · intro p hp hreq
    rcases hf : Smap.find parsed.parameters p.name with _ | v
    · simp only [Option.getD_none]
      exact fill_defaults_find_default cmd.get_parameters parsed.parameters p
        hnd hp hreq hf
    · simp only [Option.getD_some]
      exact fill_defaults_find_some cmd.get_parameters parsed.parameters
        p.name v hf

/-- C5 witness: dispatching `create_element(type: "circle", name:
"c1")` hands the handler a map in which the omitted optional `x` and
`y` are bound to their declared defaults. -/
theorem executor_fills_defaults_witness :
    (parse_command "create_element(type: \"circle\", name: \"c1\")").valid =
        true ∧
      (register_sequence [builtin_commands.create_element_handler]).get_command
          (parse_command
            "create_element(type: \"circle\", name: \"c1\")").command_name =
        some builtin_commands.create_element_handler ∧
      (validate_parameters
          builtin_commands.create_element_handler.get_parameters
          (parse_command
            "create_element(type: \"circle\", name: \"c1\")").parameters).success =
        true ∧
      (builtin_commands.create_element_handler.get_parameters.map
          Parameter.name).Nodup ∧
      execute_parsed (register_sequence
            [builtin_commands.create_element_handler])
          (parse_command "create_element(type: \"circle\", name: \"c1\")")
          {} =
        builtin_commands.create_element_handler.execute
          (fill_defaults builtin_commands.create_element_handler.get_parameters
            (parse_command
              "create_element(type: \"circle\", name: \"c1\")").parameters)
          {} ∧
      ∀ p ∈ builtin_commands.create_element_handler.get_parameters,
        p.required = false →
          Smap.find
              (fill_defaults
                builtin_commands.create_element_handler.get_parameters
                (parse_command
                  "create_element(type: \"circle\", name: \"c1\")").parameters)
              p.name =
            some ((Smap.find
                (parse_command
                  "create_element(type: \"circle\", name: \"c1\")").parameters
                p.name).getD p.default_value) := by
  have h := executor_fills_defaults
    (register_sequence [builtin_commands.create_element_handler])
    (parse_command "create_element(type: \"circle\", name: \"c1\")") {}
    builtin_commands.create_element_handler (by decide) (by rfl) (by decide)
    (by decide)
  exact ⟨by decide, by rfl, by decide, by decide, h.1, h.2⟩

namespace Tokenizer

theorem ident_start_not_space {c : Char} (h : is_identifier_start c = true) :
    is_space c = false := by
  cases hs : is_space c
  · rfl
  · exfalso
    simp only [is_space, Bool.or_eq_true, beq_iff_eq] at hs
    rcases hs with ((rfl | rfl) | rfl) | rfl <;> exact absurd h (by decide)

theorem digit_not_space {c : Char} (h : is_digit c = true) :
    is_space c = false := by
  cases hs : is_space c
  · rfl
  · exfalso
    simp only [is_space, Bool.or_eq_true, beq_iff_eq] at hs
    rcases hs with ((rfl | rfl) | rfl) | rfl <;> exact absurd h (by decide)

theorem digit_not_ident_start {c : Char} (h : is_digit c = true) :
    is_identifier_start c = false := by
  cases his : is_identifier_start c
  · rfl
  · exfalso
    simp only [is_digit, Bool.and_eq_true, decide_eq_true_eq] at h
    simp only [is_identifier_start, is_alpha, Bool.or_eq_true, Bool.and_eq_true,
      decide_eq_true_eq] at his
    rcases his with (h1 | h1) | rfl
    · omega
    · omega
    · exact absurd h (by decide)

theorem ident_start_ident_char {c : Char} (h : is_identifier_start c = true) :
    is_identifier_char c = true := by
  simp only [is_identifier_start, Bool.or_eq_true, decide_eq_true_eq] at h
  simp only [is_identifier_char, Bool.or_eq_true, decide_eq_true_eq]
  rcases h with h | h
  · exact Or.inl (Or.inl h)
  · exact Or.inr h

theorem digit_ident_char {c : Char} (h : is_digit c = true) :
    is_identifier_char c = true := by
  simp only [is_identifier_char, Bool.or_eq_true, decide_eq_true_eq]
  exact Or.inl (Or.inr h)

theorem digit_ne_gt {c : Char} (h : is_digit c = true) : c ≠ '>' := by
  intro hEq
  subst hEq
  exact absurd h (by decide)

/-- The head of a list fails a predicate (vacuously for the empty
list). -/
def HeadNot (p : Char → Bool) (l : List Char) : Prop :=
  ∀ d, l.head? = some d → p d = false

theorem headNot_nil (p : Char → Bool) : HeadNot p [] := by
  intro d hd
  cases hd

theorem headNot_cons {p : Char → Bool} {c : Char} (l : List Char)
    (h : p c = false) : HeadNot p (c :: l) := by
  intro d hd
  cases hd
  exact h

theorem takeWhile_all_append {p : Char → Bool} :
    ∀ (l r : List Char), l.all p = true → HeadNot p r →
      (l ++ r).takeWhile p = l := by
  intro l
  induction l with
  | nil =>
    intro r _ hr
    cases r with
    | nil => rfl
    | cons d r2 => simp [List.takeWhile_cons, hr d rfl]
  | cons a l2 ih =>
    intro r hall hr
    simp only [List.all_cons, Bool.and_eq_true] at hall
    simp [List.takeWhile_cons, hall.1, ih r hall.2 hr]

theorem dropWhile_all_append {p : Char → Bool} :
    ∀ (l r : List Char), l.all p = true → HeadNot p r →
      (l ++ r).dropWhile p = r := by
  intro l
  induction l with
  | nil =>
    intro r _ hr
    cases r with
    | nil => rfl
    | cons d r2 => simp [List.dropWhile_cons, hr d rfl]
  | cons a l2 ih =>
    intro r hall hr
    simp only [List.all_cons, Bool.and_eq_true] at hall
    simp [List.dropWhile_cons, hall.1, ih r hall.2 hr]

/-- A string value whose last character is a backslash cannot be
reproduced by the wire format's quote-escaping. -/
def no_trailing_backslash : List Char → Bool
  | [] => true
  | [c] => c != '\\'
  | _ :: c :: rest => no_trailing_backslash (c :: rest)

theorem lexString_rest_length_bounded :
    ∀ (n : Nat) (l : List Char), l.length ≤ n → ∀ v r,
      lexString l = some (v, r) → r.length < l.length := by
  intro n
  induction n with
  | zero =>
    intro l hl v r h
    rcases l with _ | ⟨c, cs⟩
    · cases h
    · simp at hl
  | succ n ih =>
    intro l hl v r h
    rcases l with _ | ⟨c, _ | ⟨d, cs⟩⟩
    · cases h
    · simp only [lexString] at h
      by_cases hc : c = '"'
      · rw [if_pos hc] at h
        cases h
        simp
      · rw [if_neg hc] at h
        cases h
    · simp only [lexString] at h
      by_cases hc : c = '"'
      · rw [if_pos hc] at h
        cases h
        simp
      · rw [if_neg hc] at h
        by_cases hesc : c = '\\' ∧ d = '"'
        · rw [if_pos hesc] at h
          rcases hrec : lexString cs with _ | ⟨v2, r2⟩ <;> rw [hrec] at h
          · cases h
          · cases h
            have hlen : cs.length ≤ n := by
              simp only [List.length_cons] at hl
              omega
            have := ih cs hlen v2 r hrec
            simp only [List.length_cons]
            omega
        · rw [if_neg hesc] at h
          rcases hrec : lexString (d :: cs) with _ | ⟨v2, r2⟩ <;> rw [hrec] at h
          · cases h
          · cases h
            have hlen : (d :: cs).length ≤ n := by
              simp only [List.length_cons] at hl ⊢
              omega
            have := ih (d :: cs) hlen v2 r hrec
            simp only [List.length_cons] at *
            omega

theorem lexString_rest_length (l v r : List Char)
    (h : lexString l = some (v, r)) : r.length < l.length :=
  lexString_rest_length_bounded l.length l (le_refl _) v r h

theorem lexString_quote (r : List Char) : lexString ('"' :: r) = some ([], r) := by
  rcases r with _ | ⟨x, xs⟩
  · simp [lexString]
  · simp [lexString]

theorem no_trailing_cons (c : Char) (v : List Char) (hne : v ≠ [])
    (h : no_trailing_backslash v = true) :
    no_trailing_backslash (c :: v) = true := by
  rcases v with _ | ⟨x, xs⟩
  · cases hne rfl
  · exact h

theorem no_trailing_of_cons (c : Char) (v : List Char) (hne : v ≠ [])
    (h : no_trailing_backslash (c :: v) = true) :
    no_trailing_backslash v = true := by
  rcases v with _ | ⟨x, xs⟩
  · cases hne rfl
  · exact h

theorem lexString_empty_value (l r : List Char)
    (h : lexString l = some ([], r)) : l.head? = some '"' := by
  rcases l with _ | ⟨c, _ | ⟨d, cs⟩⟩
  · cases h
  · simp only [lexString] at h
    by_cases hc : c = '"'
    · subst hc
      rfl
    · rw [if_neg hc] at h
      cases h
  · simp only [lexString] at h
    by_cases hc : c = '"'
    · subst hc
      rfl
    · rw [if_neg hc] at h
      by_cases hesc : c = '\\' ∧ d = '"'
      · rw [if_pos hesc] at h
        rcases hrec : lexString cs with _ | ⟨v2, r2⟩ <;> rw [hrec] at h
        · cases h
        · simp at h
      · rw [if_neg hesc] at h
        rcases hrec : lexString (d :: cs) with _ | ⟨v2, r2⟩ <;> rw [hrec] at h
        · cases h
        · simp at h

theorem lexString_no_trailing_bounded :
    ∀ (n : Nat) (l : List Char), l.length ≤ n → ∀ v r,
      lexString l = some (v, r) → no_trailing_backslash v = true := by
  intro n
  induction n with
  | zero =>
    intro l hl v r h
    rcases l with _ | ⟨c, cs⟩
    · cases h
    · simp at hl
  | succ n ih =>
    intro l hl v r h
    rcases l with _ | ⟨c, _ | ⟨d, cs⟩⟩
    · cases h
    · simp only [lexString] at h
      by_cases hc : c = '"'
      · rw [if_pos hc] at h
        cases h
        rfl
      · rw [if_neg hc] at h
        cases h
    · simp only [lexString] at h
      by_cases hc : c = '"'
      · rw [if_pos hc] at h
        cases h
        rfl
      · rw [if_neg hc] at h
        by_cases hesc : c = '\\' ∧ d = '"'
        · rw [if_pos hesc] at h
          rcases hrec : lexString cs with _ | ⟨v2, r2⟩ <;> rw [hrec] at h
          · cases h
          · cases h
            rcases v2 with _ | ⟨x, xs⟩
            · rfl
            · apply no_trailing_cons _ _ (by simp)
              apply ih cs (by simp only [List.length_cons] at hl; omega) _ _ hrec
        · rw [if_neg hesc] at h
          rcases hrec : lexString (d :: cs) with _ | ⟨v2, r2⟩ <;> rw [hrec] at h
          · cases h
          · cases h
            rcases hv2 : v2 with _ | ⟨x, xs⟩
            · have hd : d = '"' := by
                have := lexString_empty_value (d :: cs) _ (hv2 ▸ hrec)
                simpa using this
              have hcb : c ≠ '\\' := fun hcc => hesc ⟨hcc, hd⟩
              simp [no_trailing_backslash, bne_iff_ne, hcb]
            · apply no_trailing_cons _ _ (by simp)
              rw [← hv2]
              apply ih (d :: cs)
                (by simp only [List.length_cons] at hl ⊢; omega) _ _ hrec

theorem lexString_no_trailing (l v r : List Char)
    (h : lexString l = some (v, r)) : no_trailing_backslash v = true :=
  lexString_no_trailing_bounded l.length l (le_refl _) v r h

theorem dropWhile_length_le (p : Char → Bool) (l : List Char) :
    (l.dropWhile p).length ≤ l.length :=
  List.Sublist.length_le (List.dropWhile_sublist p)

theorem lexNumber_rest_le {c : Char} (cs : List Char)
    (hc : is_digit c = true) : (lexNumber (c :: cs)).2.length ≤ cs.length := by
  rw [lexNumber]
  have hdw : (c :: cs).dropWhile is_digit = cs.dropWhile is_digit := by
    simp [List.dropWhile_cons, hc]
  have h1 : (cs.dropWhile is_digit).length ≤ cs.length :=
    dropWhile_length_le is_digit cs
  simp only [hdw]
  split
  · rename_i d r2 heq
    rw [heq] at h1
    simp only [List.length_cons] at h1
    by_cases hd : is_digit d = true
    · rw [if_pos hd]
      have h2 := dropWhile_length_le is_digit (d :: r2)
      simp only [List.length_cons] at h2
      simp only []
      omega
    · rw [if_neg hd]
      rw [heq] at hdw ⊢
      simp only [List.length_cons]
      omega
  · simpa using h1

set_option maxHeartbeats 1000000 in
theorem nextTok_rest_le (c : Char) (cs : List Char) (pos : Nat) :
    (nextTok c cs pos).2.length ≤ cs.length := by
  rw [nextTok.eq_def]
  by_cases h1 : is_space c = true
  · rw [if_pos h1]
  · rw [if_neg h1]
    by_cases h2 : is_identifier_start c = true
    · rw [if_pos h2]
      simp only []
      split <;> exact dropWhile_length_le is_identifier_char cs
    · rw [if_neg h2]
      by_cases h3 : is_digit c = true
      · rw [if_pos h3]
        exact lexNumber_rest_le cs h3
      · rw [if_neg h3]
        by_cases h4 : c = '-'
        · rw [if_pos h4]
          rcases cs with _ | ⟨d, r⟩
          · simp
          · simp only []
            split
            · rename_i r2 heq
              injection heq with heq1 heq2
              subst heq2
              simp
            · rename_i d2 r2 hx heq
              injection heq with heq1 heq2
              subst heq1
              subst heq2
              by_cases h5 : is_digit d = true
              · rw [if_pos h5]
                have := lexNumber_rest_le r h5
                simp only [List.length_cons]
                omega
              · rw [if_neg h5]
            · simp
        · rw [if_neg h4]
          by_cases h6 : c = '"'
          · rw [if_pos h6]
            rcases hls : lexString cs with _ | ⟨v, r⟩
            · exact Nat.zero_le _
            · exact le_of_lt (lexString_rest_length cs v r hls)
          · rw [if_neg h6]
            split_ifs <;> exact Nat.le_refl _

theorem tokenizeFuel_stable :
    ∀ (f1 f2 : Nat) (l : List Char) (pos : Nat), l.length < f1 →
      l.length < f2 → tokenizeFuel f1 l pos = tokenizeFuel f2 l pos := by
  intro f1
  induction f1 with
  | zero =>
    intro f2 l pos h1 h2
    exact absurd h1 (Nat.not_lt_zero _)
  | succ f1 ih =>
    intro f2 l pos h1 h2
    rcases f2 with _ | f2
    · exact absurd h2 (Nat.not_lt_zero _)
    rcases l with _ | ⟨c, cs⟩
    · rfl
    · simp only [tokenizeFuel]
      rcases hnt : nextTok c cs pos with ⟨ot, rest⟩
      have hle : rest.length ≤ cs.length := by
        have hx := nextTok_rest_le c cs pos
        rw [hnt] at hx
        simpa using hx
      simp only [List.length_cons] at h1 h2
      have hr1 : rest.length < f1 := by omega
      have hr2 : rest.length < f2 := by omega
      rcases ot with _ | t
      · exact ih f2 rest _ hr1 hr2
      · exact congrArg (t :: ·) (ih f2 rest _ hr1 hr2)

theorem scan_cons_some (c : Char) (cs : List Char) (pos : Nat) (t : Token)
    (rest : List Char) (h : nextTok c cs pos = (some t, rest)) :
    scan (c :: cs) pos =
      t :: scan rest (pos + 1 + (cs.length - rest.length)) := by
  have hle : rest.length ≤ cs.length := by
    have hx := nextTok_rest_le c cs pos
    rw [h] at hx
    simpa using hx
  show tokenizeFuel ((c :: cs).length + 1) (c :: cs) pos = _
  have hshow : (c :: cs).length + 1 = cs.length + 1 + 1 := by simp
  rw [hshow]
  simp only [tokenizeFuel, h]
  rw [scan, tokenizeFuel_stable (cs.length + 1) (rest.length + 1) rest _
    (by omega) (by omega)]

theorem scan_cons_none (c : Char) (cs : List Char) (pos : Nat)
    (rest : List Char) (h : nextTok c cs pos = (none, rest)) :
    scan (c :: cs) pos = scan rest (pos + 1 + (cs.length - rest.length)) := by
  have hle : rest.length ≤ cs.length := by
    have hx := nextTok_rest_le c cs pos
    rw [h] at hx
    simpa using hx
  show tokenizeFuel ((c :: cs).length + 1) (c :: cs) pos = _
  have hshow : (c :: cs).length + 1 = cs.length + 1 + 1 := by simp
  rw [hshow]
  simp only [tokenizeFuel, h]
  rw [scan, tokenizeFuel_stable (cs.length + 1) (rest.length + 1) rest _
    (by omega) (by omega)]

theorem escape_chars_cons (c : Char) (t : List Char) :
    escape_chars (c :: t) =
      if c = '"' then '\\' :: '"' :: escape_chars t else c :: escape_chars t :=
  rfl

theorem lexString_escape :
    ∀ (v r : List Char), no_trailing_backslash v = true →
      lexString (escape_chars v ++ '"' :: r) = some (v, r) := by
  intro v
  induction v with
  | nil =>
    intro r _
    exact lexString_quote r
  | cons c t ih =>
    intro r hnt
    have hnt2 : no_trailing_backslash t = true := by
      rcases t with _ | ⟨x, xs⟩
      · rfl
      · exact hnt
    rw [escape_chars_cons]
    by_cases hc : c = '"'
    · subst hc
      rw [if_pos rfl]
      show lexString ('\\' :: '"' :: (escape_chars t ++ '"' :: r)) =
        some ('"' :: t, r)
      simp only [lexString]
      rw [if_neg (by decide), if_pos (⟨trivial, trivial⟩ : True ∧ True),
        ih r hnt2]
    · rw [if_neg hc]
      rcases t with _ | ⟨t0, t2⟩
      · have hcb : c ≠ '\\' := by
          have : (c != '\\') = true := hnt
          exact bne_iff_ne.mp this
        show lexString (c :: '"' :: r) = some ([c], r)
        simp only [lexString]
        rw [if_neg hc, if_neg (fun hand => hcb hand.1), lexString_quote r]
      · have hshape : ∃ d cs2, escape_chars (t0 :: t2) ++ '"' :: r = d :: cs2 ∧
            d ≠ '"' := by
          rw [escape_chars_cons]
          by_cases ht0 : t0 = '"'
          · rw [if_pos ht0]
            exact ⟨'\\', '"' :: escape_chars t2 ++ '"' :: r, rfl, by decide⟩
          · rw [if_neg ht0]
            exact ⟨t0, escape_chars t2 ++ '"' :: r, rfl, ht0⟩
        obtain ⟨d, cs2, hlist, hdq⟩ := hshape
        show lexString (c :: (escape_chars (t0 :: t2) ++ '"' :: r)) =
          some (c :: t0 :: t2, r)
        rw [hlist]
        simp only [lexString]
        rw [if_neg hc, if_neg (fun hand => hdq hand.2), ← hlist, ih r hnt2]

/-- The shape of an identifier lexeme. -/
def ident_text : List Char → Bool
  | [] => false
  | c :: cs => is_identifier_start c && cs.all is_identifier_char

/-- The invariant of tokens produced by the scanner: identifier tokens
carry a non-keyword identifier lexeme and string tokens never end in a
backslash. -/
def GoodTok (t : Token) : Prop :=
  (t.type = TokenType.identifier →
    ident_text t.value.toList = true ∧ keywords.contains t.value = false) ∧
  (t.type = TokenType.stringTok →
    no_trailing_backslash t.value.toList = true)

theorem goodTok_other {ty : TokenType} {val : String} {pos2 : Nat}
    (h1 : ty ≠ TokenType.identifier) (h2 : ty ≠ TokenType.stringTok) :
    GoodTok ⟨ty, val, pos2⟩ :=
  ⟨fun hh => absurd hh h1, fun hh => absurd hh h2⟩

set_option maxHeartbeats 1000000 in
theorem nextTok_good (c : Char) (cs : List Char) (pos : Nat) (t : Token)
    (rest : List Char) (h : nextTok c cs pos = (some t, rest)) : GoodTok t := by
  rw [nextTok.eq_def] at h
  by_cases h1 : is_space c = true
  · rw [if_pos h1] at h
    simp at h
  · rw [if_neg h1] at h
    by_cases h2 : is_identifier_start c = true
    · rw [if_pos h2] at h
      simp only [] at h
      by_cases hk : keywords.contains
          (String.mk (c :: cs.takeWhile is_identifier_char)) = true
      · rw [if_pos hk] at h
        injection h with ht hrest
        injection ht with ht
        subst ht
        exact goodTok_other (by decide) (by decide)
      · rw [if_neg hk] at h
        injection h with ht hrest
        injection ht with ht
        subst ht
        refine ⟨fun _ => ⟨?_, ?_⟩, fun hh => by simp at hh⟩
        · show ident_text (c :: cs.takeWhile is_identifier_char) = true
          simp only [ident_text, Bool.and_eq_true]
          exact ⟨h2, List.all_takeWhile⟩
        · simpa using hk
    · rw [if_neg h2] at h
      by_cases h3 : is_digit c = true
      · rw [if_pos h3] at h
        injection h with ht hrest
        injection ht with ht
        subst ht
        exact goodTok_other (by decide) (by decide)
      · rw [if_neg h3] at h
        by_cases h4 : c = '-'
        · rw [if_pos h4] at h
          rcases cs with _ | ⟨d, r⟩
          · injection h with ht hrest
            injection ht with ht
            subst ht
            exact goodTok_other (by decide) (by decide)
          · simp only [] at h
            split at h
            · injection h with ht hrest
              injection ht with ht
              subst ht
              exact goodTok_other (by decide) (by decide)
            · rename_i d2 r2 hx heq
              by_cases h5 : is_digit d2 = true
              · rw [if_pos h5] at h
                injection h with ht hrest
                injection ht with ht
                subst ht
                exact goodTok_other (by decide) (by decide)
              · rw [if_neg h5] at h
                injection h with ht hrest
                injection ht with ht
                subst ht
                exact goodTok_other (by decide) (by decide)
            · injection h with ht hrest
              injection ht with ht
              subst ht
              exact goodTok_other (by decide) (by decide)
        · rw [if_neg h4] at h
          by_cases h6 : c = '"'
          · rw [if_pos h6] at h
            rcases hls : lexString cs with _ | ⟨v, r⟩ <;> rw [hls] at h
            · simp at h
            · injection h with ht hrest
              injection ht with ht
              subst ht
              refine ⟨fun hh => by simp at hh, fun _ => ?_⟩
              show no_trailing_backslash v = true
              exact lexString_no_trailing cs v r hls
          · rw [if_neg h6] at h
            split_ifs at h <;>
              first
                | exact Option.noConfusion (congrArg Prod.fst h)
                | (injection h with ht hrest
                   injection ht with ht
                   subst ht
                   exact goodTok_other (by decide) (by decide))

theorem tokenizeFuel_good :
    ∀ (fuel : Nat) (l : List Char) (pos : Nat) (t : Token),
      t ∈ tokenizeFuel fuel l pos → GoodTok t := by
  intro fuel
  induction fuel with
  | zero =>
    intro l pos t h
    cases h
  | succ fuel ih =>
    intro l pos t h
    rcases l with _ | ⟨c, cs⟩
    · cases h
    · simp only [tokenizeFuel] at h
      rcases hnt : nextTok c cs pos with ⟨ot, rest⟩
      rw [hnt] at h
      rcases ot with _ | t2
      · exact ih rest _ t h
      · have h2 : t = t2 ∨
            t ∈ tokenizeFuel fuel rest (pos + 1 + (cs.length - rest.length)) :=
          List.mem_cons.mp h
        rcases h2 with rfl | h2
        · exact nextTok_good c cs pos t rest hnt
        · exact ih rest _ t h2

theorem scan_good (l : List Char) (pos : Nat) (t : Token)
    (h : t ∈ scan l pos) : GoodTok t :=
  tokenizeFuel_good _ l pos t h

theorem scan_keyword_chunk (c : Char) (v rest : List Char) (pos : Nat)
    (hc : is_identifier_start c = true) (hv : v.all is_identifier_char = true)
    (hrest : HeadNot is_identifier_char rest)
    (hk : keywords.contains (String.mk (c :: v)) = true) :
    scan ((c :: v) ++ rest) pos =
      Token.mk TokenType.keyword (String.mk (c :: v)) pos ::
        scan rest (pos + 1 + v.length) := by
  have h1 : (v ++ rest).takeWhile is_identifier_char = v :=
    takeWhile_all_append v rest hv hrest
  have h2 : (v ++ rest).dropWhile is_identifier_char = rest :=
    dropWhile_all_append v rest hv hrest
  have hnt : nextTok c (v ++ rest) pos =
      (some ⟨TokenType.keyword, String.mk (c :: v), pos⟩, rest) := by
    rw [nextTok.eq_def, if_neg (by simp [ident_start_not_space hc]),
      if_pos hc]
    simp only [h1, h2, hk, if_true]
  have := scan_cons_some c (v ++ rest) pos _ rest hnt
  rw [show (c :: v) ++ rest = c :: (v ++ rest) from rfl, this]
  have harith : (v ++ rest).length - rest.length = v.length := by
    simp [List.length_append]
  rw [harith]

theorem scan_identifier_chunk (c : Char) (v rest : List Char) (pos : Nat)
    (hc : is_identifier_start c = true) (hv : v.all is_identifier_char = true)
    (hrest : HeadNot is_identifier_char rest)
    (hk : keywords.contains (String.mk (c :: v)) = false) :
    scan ((c :: v) ++ rest) pos =
      Token.mk TokenType.identifier (String.mk (c :: v)) pos ::
        scan rest (pos + 1 + v.length) := by
  have h1 : (v ++ rest).takeWhile is_identifier_char = v :=
    takeWhile_all_append v rest hv hrest
  have h2 : (v ++ rest).dropWhile is_identifier_char = rest :=
    dropWhile_all_append v rest hv hrest
  have hnt : nextTok c (v ++ rest) pos =
      (some ⟨TokenType.identifier, String.mk (c :: v), pos⟩, rest) := by
    rw [nextTok.eq_def, if_neg (by simp [ident_start_not_space hc]),
      if_pos hc]
    simp only [h1, h2, hk, Bool.false_eq_true, if_false]
  have := scan_cons_some c (v ++ rest) pos _ rest hnt
  rw [show (c :: v) ++ rest = c :: (v ++ rest) from rfl, this]
  have harith : (v ++ rest).length - rest.length = v.length := by
    simp [List.length_append]
  rw [harith]

theorem scan_space_chunk (rest : List Char) (pos : Nat) :
    scan (' ' :: rest) pos = scan rest (pos + 1) := by
  have hnt : nextTok ' ' rest pos = (none, rest) := rfl
  have := scan_cons_none ' ' rest pos rest hnt
  rw [this, Nat.sub_self]

theorem scan_open_paren_chunk (rest : List Char) (pos : Nat) :
    scan ('(' :: rest) pos =
      Token.mk TokenType.openParen "(" pos :: scan rest (pos + 1) := by
  have hnt : nextTok '(' rest pos =
      (some ⟨TokenType.openParen, "(", pos⟩, rest) := rfl
  have := scan_cons_some '(' rest pos _ rest hnt
  rw [this, Nat.sub_self]

theorem scan_close_paren_chunk (rest : List Char) (pos : Nat) :
    scan (')' :: rest) pos =
      Token.mk TokenType.closeParen ")" pos :: scan rest (pos + 1) := by
  have hnt : nextTok ')' rest pos =
      (some ⟨TokenType.closeParen, ")", pos⟩, rest) := rfl
  have := scan_cons_some ')' rest pos _ rest hnt
  rw [this, Nat.sub_self]

theorem scan_comma_chunk (rest : List Char) (pos : Nat) :
    scan (',' :: rest) pos =
      Token.mk TokenType.comma "," pos :: scan rest (pos + 1) := by
  have hnt : nextTok ',' rest pos =
      (some ⟨TokenType.comma, ",", pos⟩, rest) := rfl
  have := scan_cons_some ',' rest pos _ rest hnt
  rw [this, Nat.sub_self]

theorem scan_colon_chunk (rest : List Char) (pos : Nat) :
    scan (':' :: rest) pos =
      Token.mk TokenType.colon ":" pos :: scan rest (pos + 1) := by
  have hnt : nextTok ':' rest pos =
      (some ⟨TokenType.colon, ":", pos⟩, rest) := rfl
  have := scan_cons_some ':' rest pos _ rest hnt
  rw [this, Nat.sub_self]

theorem scan_nil (pos : Nat) : scan [] pos = [] := rfl

theorem scan_string_chunk (v rest : List Char) (pos : Nat)
    (hv : no_trailing_backslash v = true) :
    ∃ pos2, scan ('"' :: (escape_chars v ++ '"' :: rest)) pos =
      Token.mk TokenType.stringTok (String.mk v) pos :: scan rest pos2 := by
  have hls := lexString_escape v rest hv
  have hnt : nextTok '"' (escape_chars v ++ '"' :: rest) pos =
      (some ⟨TokenType.stringTok, String.mk v, pos⟩, rest) := by
    rw [nextTok.eq_def]
    rw [if_neg (by decide), if_neg (by decide), if_neg (by decide),
      if_neg (by decide), if_pos rfl, hls]
  exact ⟨_, scan_cons_some '"' _ pos _ rest hnt⟩

end Tokenizer

theorem digit_val_digitChar (d : Nat) (hd : d < 10) :
    digit_val (Nat.digitChar d) = d := by
  interval_cases d <;> rfl

theorem is_digit_digitChar (d : Nat) (hd : d < 10) :
    Tokenizer.is_digit (Nat.digitChar d) = true := by
  interval_cases d <;> rfl

theorem nat_digit_chars_all_digit (n : Nat) :
    (nat_digit_chars n).all Tokenizer.is_digit = true := by
  rw [nat_digit_chars]
  by_cases hn : n = 0
  · rw [if_pos hn]
    rfl
  · rw [if_neg hn]
    rw [List.all_eq_true]
    intro c hc
    obtain ⟨d, hd, rfl⟩ := List.mem_map.mp hc
    exact is_digit_digitChar d
      (Nat.digits_lt_base (by norm_num) (List.mem_reverse.mp hd))

theorem nat_digit_chars_ne_nil (n : Nat) : nat_digit_chars n ≠ [] := by
  rw [nat_digit_chars]
  by_cases hn : n = 0
  · rw [if_pos hn]
    simp
  · rw [if_neg hn]
    simp [Nat.digits_ne_nil_iff_ne_zero.mpr hn]

theorem digitsToNat_append_single (xs : List Char) (c : Char) :
    digitsToNat (xs ++ [c]) = 10 * digitsToNat xs + digit_val c := by
  rw [digitsToNat, digitsToNat, List.foldl_append]
  rfl

theorem digitsToNat_rev_map (D : List Nat) (hD : ∀ d ∈ D, d < 10) :
    digitsToNat (D.reverse.map Nat.digitChar) = Nat.ofDigits 10 D := by
  induction D with
  | nil => rfl
  | cons d D2 ih =>
    rw [List.reverse_cons, List.map_append, List.map_singleton,
      digitsToNat_append_single, Nat.ofDigits_cons,
      ih (fun x hx => hD x (List.mem_cons_of_mem d hx)),
      digit_val_digitChar d (hD d (List.mem_cons_self d D2))]
    omega

theorem digitsToNat_nat_digit_chars (n : Nat) :
    digitsToNat (nat_digit_chars n) = n := by
  rw [nat_digit_chars]
  by_cases hn : n = 0
  · rw [if_pos hn, hn]
    rfl
  · rw [if_neg hn]
    rw [show (Nat.digits 10 n).reverse.map Nat.digitChar =
        (Nat.digits 10 n).reverse.map Nat.digitChar from rfl]
    rw [digitsToNat_rev_map (Nat.digits 10 n)
      (fun d hd => Nat.digits_lt_base (by norm_num) hd)]
    exact Nat.ofDigits_digits 10 n

theorem digitsToNat_replicate_zero (k : Nat) (ds : List Char) :
    digitsToNat (List.replicate k '0' ++ ds) = digitsToNat ds := by
  induction k with
  | zero => rfl
  | succ k ih =>
    rw [List.replicate_succ, List.cons_append]
    show digitsToNat (List.replicate k '0' ++ ds) = digitsToNat ds
    exact ih

theorem takeWhile_of_all {p : Char → Bool} (l : List Char)
    (h : l.all p = true) : l.takeWhile p = l := by
  rw [List.takeWhile_eq_self_iff]
  simpa [List.all_eq_true] using h

theorem dropWhile_of_all {p : Char → Bool} (l : List Char)
    (h : l.all p = true) : l.dropWhile p = [] := by
  rw [List.dropWhile_eq_nil_iff]
  simpa [List.all_eq_true] using h

theorem format_number_padded_all_digit (n e : Nat) :
    (List.replicate (e + 1 - (nat_digit_chars n).length) '0' ++
      nat_digit_chars n).all Tokenizer.is_digit = true := by
  rw [List.all_append, Bool.and_eq_true]
  constructor
  · rw [List.all_eq_true]
    intro c hc
    rw [List.eq_of_mem_replicate hc]
    rfl
  · exact nat_digit_chars_all_digit n

theorem format_number_padded_length (n e : Nat) :
    e + 1 ≤ (List.replicate (e + 1 - (nat_digit_chars n).length) '0' ++
      nat_digit_chars n).length := by
  rw [List.length_append, List.length_replicate]
  omega

theorem digitsToNat_padded (n e : Nat) :
    digitsToNat (List.replicate (e + 1 - (nat_digit_chars n).length) '0' ++
      nat_digit_chars n) = n := by
  rw [digitsToNat_replicate_zero]
  exact digitsToNat_nat_digit_chars n

theorem parseDecimal_all_digit (l : List Char)
    (hl : l.all Tokenizer.is_digit = true) :
    parseDecimal l = ((digitsToNat l : ℤ), 0) := by
  rw [parseDecimal]
  rw [takeWhile_of_all l hl, dropWhile_of_all l hl]

theorem parseDecimal_point (ip fr : List Char)
    (hip : ip.all Tokenizer.is_digit = true)
    (hfr : fr.all Tokenizer.is_digit = true) (hfrne : fr ≠ []) :
    parseDecimal (ip ++ '.' :: fr) =
      ((digitsToNat (ip ++ fr) : ℤ), fr.length) := by
  rw [parseDecimal]
  have h1 : (ip ++ '.' :: fr).takeWhile Tokenizer.is_digit = ip :=
    Tokenizer.takeWhile_all_append ip ('.' :: fr) hip
      (Tokenizer.headNot_cons fr (by rfl))
  have h2 : (ip ++ '.' :: fr).dropWhile Tokenizer.is_digit = '.' :: fr :=
    Tokenizer.dropWhile_all_append ip ('.' :: fr) hip
      (Tokenizer.headNot_cons fr (by rfl))
  rw [h1, h2]
  rfl

theorem parseNumberValue_not_minus (l : List Char) (hne : l ≠ [])
    (hhead : ∀ d, l.head? = some d → d ≠ '-') :
    parseNumberValue l = MiniValue.number (parseDecimal l).1
      (parseDecimal l).2 := by
  rcases l with _ | ⟨c, cs⟩
  · cases hne rfl
  · rw [parseNumberValue.eq_def]
    split
    · rename_i rest heq
      injection heq with heq1 heq2
      exact absurd heq1 (hhead c rfl)
    · rfl

theorem parseNumberValue_format (m : ℤ) (e : Nat) :
    parseNumberValue (format_number m e) = MiniValue.number m e := by
  rw [format_number]
  have hall := format_number_padded_all_digit m.natAbs e
  have hlen := format_number_padded_length m.natAbs e
  set padded := List.replicate (e + 1 - (nat_digit_chars m.natAbs).length) '0'
    ++ nat_digit_chars m.natAbs with hpadded
  have hpne : padded ≠ [] := by
    intro hc
    rw [hc] at hlen
    simp at hlen
  have hbody : ∀ body : List Char, body.all Tokenizer.is_digit = true →
      body ≠ [] → parseDecimal body = ((digitsToNat body : ℤ), 0) →
      True := fun _ _ _ _ => trivial
  by_cases he : e = 0
  · rw [if_pos he]
    subst he
    have hpad : parseDecimal padded = ((digitsToNat padded : ℤ), 0) :=
      parseDecimal_all_digit padded hall
    by_cases hm : m < 0
    · rw [if_pos hm]
      show parseNumberValue ('-' :: padded) = _
      rw [parseNumberValue.eq_def]
      simp only []
      rw [hpad]
      rw [hpadded, digitsToNat_padded]
      congr 1
      omega
    · rw [if_neg hm]
      simp only [List.nil_append]
      rw [parseNumberValue_not_minus padded hpne ?hhead, hpad]
      · rw [hpadded, digitsToNat_padded]
        congr 1
        omega
      case hhead =>
        intro d hd hdm
        subst hdm
        rcases padded with _ | ⟨p0, prest⟩
        · cases hpne rfl
        · injection hd with hd
          subst hd
          rw [List.all_cons, Bool.and_eq_true] at hall
          exact absurd hall.1 (by decide)
  · rw [if_neg he]
    have hepos : 0 < e := Nat.pos_of_ne_zero he
    set ip := padded.take (padded.length - e) with hip
    set fr := padded.drop (padded.length - e) with hfr
    have hipfr : ip ++ fr = padded := List.take_append_drop _ padded
    have hipall : ip.all Tokenizer.is_digit = true := by
      rw [List.all_eq_true] at hall ⊢
      exact fun c hc => hall c (hipfr ▸ List.mem_append_left fr hc)
    have hfrall : fr.all Tokenizer.is_digit = true := by
      rw [List.all_eq_true] at hall ⊢
      exact fun c hc => hall c (hipfr ▸ List.mem_append_right ip hc)
    have hfrlen : fr.length = e := by
      rw [hfr, List.length_drop]
      omega
    have hfrne : fr ≠ [] := by
      intro hc
      rw [hc] at hfrlen
      simp at hfrlen
      omega
    have hpoint := parseDecimal_point ip fr hipall hfrall hfrne
    have hipne : ip ≠ [] := by
      intro hc
      rw [hip] at hc
      have : padded.length - e = 0 ∨ padded = [] := by
        rcases List.take_eq_nil_iff.mp hc with h | h
        · exact Or.inl h
        · exact Or.inr h
      rcases this with h | h
      · omega
      · exact hpne h
    by_cases hm : m < 0
    · rw [if_pos hm]
      show parseNumberValue ('-' :: (ip ++ '.' :: fr)) = _
      rw [parseNumberValue.eq_def]
      simp only []
      rw [hpoint]
      simp only [hipfr, hfrlen]
      rw [hpadded, digitsToNat_padded]
      congr 1
      omega
    · rw [if_neg hm]
      simp only [List.nil_append]
      rw [parseNumberValue_not_minus (ip ++ '.' :: fr) (by simp) ?hhead2,
        hpoint]
      · simp only [hipfr, hfrlen]
        rw [hpadded, digitsToNat_padded]
        congr 1
        omega
      case hhead2 =>
        intro d hd hdm
        subst hdm
        rcases hipc : ip with _ | ⟨p0, prest⟩
        · exact hipne hipc
        · rw [hipc] at hd hipall
          injection hd with hd
          subst hd
          rw [List.all_cons, Bool.and_eq_true] at hipall
          exact absurd hipall.1 (by decide)

namespace Tokenizer

theorem lexNumber_run_flat (ds rest : List Char)
    (hds : ds.all is_digit = true) (hne : ds ≠ [])
    (hrest : HeadNot is_digit rest)
    (hdot : ∀ d, rest.head? = some d → d ≠ '.') :
    lexNumber (ds ++ rest) = (ds, rest) := by
  rw [lexNumber]
  rw [takeWhile_all_append ds rest hds hrest,
    dropWhile_all_append ds rest hds hrest]
  rcases rest with _ | ⟨r0, rrest⟩
  · rfl
  · have hr0 : r0 ≠ '.' := hdot r0 rfl
    split
    · rename_i d r2 heq
      injection heq with heq1 heq2
      exact absurd heq1 hr0
    · rfl

theorem lexNumber_run_point (ip fr rest : List Char)
    (hip : ip.all is_digit = true) (hipne : ip ≠ [])
    (hfr : fr.all is_digit = true) (hfrne : fr ≠ [])
    (hrest : HeadNot is_digit rest) :
    lexNumber ((ip ++ '.' :: fr) ++ rest) = (ip ++ '.' :: fr, rest) := by
  have hsplit : (ip ++ '.' :: fr) ++ rest = ip ++ '.' :: (fr ++ rest) := by
    simp
  rw [hsplit, lexNumber]
  have hdotNot : HeadNot is_digit ('.' :: (fr ++ rest)) :=
    headNot_cons _ (by rfl)
  rw [takeWhile_all_append ip ('.' :: (fr ++ rest)) hip hdotNot,
    dropWhile_all_append ip ('.' :: (fr ++ rest)) hip hdotNot]
  rcases hfrc : fr with _ | ⟨f0, frest⟩
  · exact absurd hfrc hfrne
  · rw [List.cons_append]
    have hf0 : is_digit f0 = true := by
      rw [hfrc, List.all_cons, Bool.and_eq_true] at hfr
      exact hfr.1
    have hfr2 : frest.all is_digit = true := by
      rw [hfrc, List.all_cons, Bool.and_eq_true] at hfr
      exact hfr.2
    simp only []
    rw [if_pos hf0]
    rw [show f0 :: (frest ++ rest) = (f0 :: frest) ++ rest from rfl]
    rw [takeWhile_all_append (f0 :: frest) rest
        (by rw [List.all_cons, Bool.and_eq_true]; exact ⟨hf0, hfr2⟩) hrest,
      dropWhile_all_append (f0 :: frest) rest
        (by rw [List.all_cons, Bool.and_eq_true]; exact ⟨hf0, hfr2⟩) hrest]

theorem nextTok_digit_run (b0 : Char) (btail rest : List Char) (pos : Nat)
    (hb0 : is_digit b0 = true)
    (hlex : lexNumber ((b0 :: btail) ++ rest) = (b0 :: btail, rest)) :
    nextTok b0 (btail ++ rest) pos =
      (some ⟨TokenType.number, String.mk (b0 :: btail), pos⟩, rest) := by
  rw [nextTok.eq_def]
  rw [if_neg (by simp [digit_not_space hb0]),
    if_neg (by simp [digit_not_ident_start hb0]), if_pos hb0]
  rw [show b0 :: (btail ++ rest) = (b0 :: btail) ++ rest from rfl, hlex]

theorem nextTok_neg_number (b0 : Char) (btail rest : List Char) (pos : Nat)
    (hb0 : is_digit b0 = true)
    (hlex : lexNumber ((b0 :: btail) ++ rest) = (b0 :: btail, rest)) :
    nextTok '-' ((b0 :: btail) ++ rest) pos =
      (some ⟨TokenType.number, String.mk ('-' :: b0 :: btail), pos⟩, rest) := by
  rw [nextTok.eq_def]
  rw [if_neg (by decide), if_neg (by decide), if_neg (by decide),
    if_pos rfl]
  rw [List.cons_append]
  simp only []
  split
  · rename_i r2 heq
    injection heq with heq1 heq2
    exact absurd heq1 (digit_ne_gt hb0)
  · rename_i d2 r2 hx heq
    injection heq with heq1 heq2
    subst heq1
    subst heq2
    rw [if_pos hb0]
    rw [show b0 :: (btail ++ rest) = (b0 :: btail) ++ rest from rfl, hlex]
  · rename_i heq
    cases heq

end Tokenizer

theorem scan_number_chunk (m : ℤ) (e : Nat) (rest : List Char) (pos : Nat)
    (hrest : Tokenizer.HeadNot Tokenizer.is_digit rest)
    (hdot : ∀ d, rest.head? = some d → d ≠ '.') :
    ∃ pos2, Tokenizer.scan (format_number m e ++ rest) pos =
      Tokenizer.Token.mk Tokenizer.TokenType.number
          (String.mk (format_number m e)) pos ::
        Tokenizer.scan rest pos2 := by
  have hall := format_number_padded_all_digit m.natAbs e
  have hlen := format_number_padded_length m.natAbs e
  set padded := List.replicate (e + 1 - (nat_digit_chars m.natAbs).length) '0'
    ++ nat_digit_chars m.natAbs with hpadded
  have hbody : ∃ b0 btail, (if e = 0 then padded
      else padded.take (padded.length - e) ++
        '.' :: padded.drop (padded.length - e)) = b0 :: btail ∧
      Tokenizer.is_digit b0 = true ∧
      Tokenizer.lexNumber ((b0 :: btail) ++ rest) = (b0 :: btail, rest) := by
    by_cases he : e = 0
    · rw [if_pos he]
      rcases hpc : padded with _ | ⟨p0, ptail⟩
      · rw [hpc] at hlen
        simp at hlen
      · have hp0 : Tokenizer.is_digit p0 = true := by
          rw [hpc, List.all_cons, Bool.and_eq_true] at hall
          exact hall.1
        refine ⟨p0, ptail, rfl, hp0, ?_⟩
        rw [← hpc]
        rw [hpc]
        exact Tokenizer.lexNumber_run_flat (p0 :: ptail) rest
          (hpc ▸ hall) (by simp) hrest hdot
    · rw [if_neg he]
      set ip := padded.take (padded.length - e) with hip
      set fr := padded.drop (padded.length - e) with hfr
      have hipfr : ip ++ fr = padded := List.take_append_drop _ padded
      have hipall : ip.all Tokenizer.is_digit = true := by
        rw [List.all_eq_true] at hall ⊢
        exact fun c hc => hall c (hipfr ▸ List.mem_append_left fr hc)
      have hfrall : fr.all Tokenizer.is_digit = true := by
        rw [List.all_eq_true] at hall ⊢
        exact fun c hc => hall c (hipfr ▸ List.mem_append_right ip hc)
      have hfrlen : fr.length = e := by
        rw [hfr, List.length_drop]
        omega
      have hfrne : fr ≠ [] := by
        intro hc
        rw [hc] at hfrlen
        simp at hfrlen
        omega
      have hipne : ip ≠ [] := by
        intro hc
        have h2 : ip.length = 0 := by rw [hc]; rfl
        rw [hip, List.length_take] at h2
        omega
      rcases hipc : ip with _ | ⟨i0, itail⟩
      · exact absurd hipc hipne
      · have hi0 : Tokenizer.is_digit i0 = true := by
          rw [hipc, List.all_cons, Bool.and_eq_true] at hipall
          exact hipall.1
        refine ⟨i0, itail ++ '.' :: fr, ?_, hi0, ?_⟩
        · rfl
        · have := Tokenizer.lexNumber_run_point ip fr rest hipall hipne
            hfrall hfrne hrest
          rw [hipc] at this
          simpa using this
  obtain ⟨b0, btail, hbshape, hb0, hlex⟩ := hbody
  rw [format_number]
  rw [← hpadded]
  by_cases hm : m < 0
  · rw [if_pos hm]
    have hsigned : (if e = 0 then ['-'] ++ padded
        else ['-'] ++ List.take (padded.length - e) padded ++
          '.' :: List.drop (padded.length - e) padded) =
        '-' :: (b0 :: btail) := by
      by_cases he : e = 0
      · rw [if_pos he] at hbshape ⊢
        rw [hbshape]
        rfl
      · rw [if_neg he] at hbshape ⊢
        rw [← hbshape]
        simp
    rw [hsigned]
    have hnt := Tokenizer.nextTok_neg_number b0 btail rest pos hb0 hlex
    refine ⟨pos + 1 + (((b0 :: btail) ++ rest).length - rest.length), ?_⟩
    rw [show ('-' :: (b0 :: btail)) ++ rest = '-' :: ((b0 :: btail) ++ rest)
      from rfl]
    exact Tokenizer.scan_cons_some '-' ((b0 :: btail) ++ rest) pos _ rest hnt
  · rw [if_neg hm]
    simp only [List.nil_append]
    rw [hbshape]
    have hnt := Tokenizer.nextTok_digit_run b0 btail rest pos hb0 hlex
    refine ⟨pos + 1 + ((btail ++ rest).length - rest.length), ?_⟩
    rw [show (b0 :: btail) ++ rest = b0 :: (btail ++ rest) from rfl]
    exact Tokenizer.scan_cons_some b0 (btail ++ rest) pos _ rest hnt

theorem strMk_toList (s : String) : String.mk s.toList = s := by
  cases s
  rfl

/-- Well-formedness of a parsed value: a string value never ends in a
backslash (what the quote-escaping wire format can reproduce); other
values are unrestricted. -/
def wfValue : MiniValue → Bool
  | MiniValue.text s => Tokenizer.no_trailing_backslash s.toList
  | _ => true

theorem headNot_of_sep {rest : List Char}
    (hrest : rest.head? = some ',' ∨ rest.head? = some ')') :
    Tokenizer.HeadNot Tokenizer.is_identifier_char rest ∧
      Tokenizer.HeadNot Tokenizer.is_digit rest ∧
      (∀ d, rest.head? = some d → d ≠ '.') := by
  refine ⟨?_, ?_, ?_⟩
  · intro d hd
    rcases hrest with h | h <;> (rw [h] at hd; injection hd with hd; subst hd)
    · rfl
    · rfl
  · intro d hd
    rcases hrest with h | h <;> (rw [h] at hd; injection hd with hd; subst hd)
    · rfl
    · rfl
  · intro d hd
    rcases hrest with h | h <;> (rw [h] at hd; injection hd with hd; subst hd)
    · decide
    · decide

theorem scan_value_chunk (v : MiniValue) (rest : List Char) (pos : Nat)
    (hwf : wfValue v = true)
    (hrest : rest.head? = some ',' ∨ rest.head? = some ')') :
    ∃ pos2 vtok, Tokenizer.scan (format_value v ++ rest) pos =
      vtok :: Tokenizer.scan rest pos2 ∧ parse_value vtok = some v ∧
      vtok.type ≠ Tokenizer.TokenType.semicolon ∧
      vtok.type ≠ Tokenizer.TokenType.endTok := by
  obtain ⟨hni, hnd, hdot⟩ := headNot_of_sep hrest
  rcases v with _ | ⟨m, e⟩ | s | b
  · refine ⟨pos + 1 + 3,
      ⟨Tokenizer.TokenType.keyword, String.mk ('n' :: ['u', 'l', 'l']), pos⟩,
      ?_, ?_, ?_, ?_⟩
    · show Tokenizer.scan (('n' :: ['u', 'l', 'l']) ++ rest) pos = _
      exact Tokenizer.scan_keyword_chunk 'n' ['u', 'l', 'l'] rest pos
        (by decide) (by decide) hni (by decide)
    · rfl
    · simp
    · simp
  · obtain ⟨pos2, hscan⟩ := scan_number_chunk m e rest pos hnd hdot
    refine ⟨pos2, _, hscan, ?_, by simp, by simp⟩
    show parse_value ⟨Tokenizer.TokenType.number,
      String.mk (format_number m e), pos⟩ = some (MiniValue.number m e)
    rw [parse_value]
    simp only []
    rw [show (String.mk (format_number m e)).toList = format_number m e
      from rfl]
    rw [parseNumberValue_format]
  · have hs : Tokenizer.no_trailing_backslash s.toList = true := hwf
    obtain ⟨pos2, hscan⟩ :=
      Tokenizer.scan_string_chunk s.toList rest pos hs
    refine ⟨pos2,
      ⟨Tokenizer.TokenType.stringTok, String.mk s.toList, pos⟩,
      ?_, ?_, by simp, by simp⟩
    · show Tokenizer.scan
        ('"' :: (escape_chars s.toList ++ ['"']) ++ rest) pos = _
      rw [show ('"' :: (escape_chars s.toList ++ ['"'])) ++ rest =
        '"' :: (escape_chars s.toList ++ '"' :: rest) by simp]
      exact hscan
    · show parse_value ⟨Tokenizer.TokenType.stringTok,
        String.mk s.toList, pos⟩ = some (MiniValue.text s)
      rw [parse_value]
      simp only [strMk_toList]
  · rcases b with _ | _
    · refine ⟨pos + 1 + 4,
        ⟨Tokenizer.TokenType.keyword,
          String.mk ('f' :: ['a', 'l', 's', 'e']), pos⟩, ?_, ?_, ?_, ?_⟩
      · show Tokenizer.scan (('f' :: ['a', 'l', 's', 'e']) ++ rest) pos = _
        exact Tokenizer.scan_keyword_chunk 'f' ['a', 'l', 's', 'e'] rest pos
          (by decide) (by decide) hni (by decide)
      · rfl
      · simp
      · simp
    · refine ⟨pos + 1 + 3,
        ⟨Tokenizer.TokenType.keyword,
          String.mk ('t' :: ['r', 'u', 'e']), pos⟩, ?_, ?_, ?_, ?_⟩
      · show Tokenizer.scan (('t' :: ['r', 'u', 'e']) ++ rest) pos = _
        exact Tokenizer.scan_keyword_chunk 't' ['r', 'u', 'e'] rest pos
          (by decide) (by decide) hni (by decide)
      · rfl
      · simp
      · simp

open Tokenizer in
theorem scan_key_chunk (k : String) (rest : List Char) (pos : Nat)
    (hk : ident_text k.toList = true)
    (hnk : keywords.contains k = false) :
    scan (k.toList ++ ':' :: rest) pos =
      Token.mk TokenType.identifier k pos ::
        Token.mk TokenType.colon ":" (pos + 1 + (k.toList.length - 1)) ::
        scan rest (pos + 1 + (k.toList.length - 1) + 1) := by
  rcases hkc : k.toList with _ | ⟨c, v⟩
  · rw [hkc] at hk
    cases hk
  · rw [hkc] at hk
    rw [ident_text] at hk
    rw [Bool.and_eq_true] at hk
    have hcol : HeadNot is_identifier_char (':' :: rest) :=
      headNot_cons rest (by rfl)
    have hmk : String.mk (c :: v) = k := by
      rw [← hkc]
      exact strMk_toList k
    have h1 := scan_identifier_chunk c v (':' :: rest) pos hk.1 hk.2 hcol
      (by rw [hmk]; exact hnk)
    rw [h1, hmk, scan_colon_chunk]
    have hlen : (c :: v).length - 1 = v.length := by simp
    rw [hlen]

open Tokenizer in
theorem scan_format_args :
    ∀ (m : Smap MiniValue) (pos : Nat),
      (∀ kv ∈ m, ident_text kv.1.toList = true ∧
        keywords.contains kv.1 = false ∧ wfValue kv.2 = true) →
      m ≠ [] →
      ∃ ts, scan (format_args m ++ [')']) pos = ts ∧
        (∀ t ∈ ts, t.type ≠ TokenType.semicolon ∧
          t.type ≠ TokenType.endTok) ∧
        (∃ key kpos rest3,
          ts = Token.mk TokenType.identifier key kpos :: rest3) ∧
        ∀ acc, parseArgs ts acc =
          some (m.foldl (fun a kv => Smap.insert a kv.1 kv.2) acc) := by
  intro m
  induction m with
  | nil =>
    intro pos _ hne
    cases hne rfl
  | cons kv m2 ih =>
    obtain ⟨k, v⟩ := kv
    intro pos hwf hne
    have hkv := hwf (k, v) (List.mem_cons_self _ _)
    rcases m2 with _ | ⟨kv2, m3⟩
    · -- singleton argument list
      have hfmt : format_args [(k, v)] ++ [')'] =
          k.toList ++ ':' :: ' ' :: (format_value v ++ [')']) := by
        rw [format_args]
        simp
      rw [hfmt, scan_key_chunk k _ pos hkv.1 hkv.2.1, scan_space_chunk]
      obtain ⟨pos2, vtok, hscan, hpv, hnsemi, hnend⟩ :=
        scan_value_chunk v [')'] _ hkv.2.2 (Or.inr rfl)
      rw [hscan, scan_close_paren_chunk, scan_nil]
      refine ⟨_, rfl, ?_, ⟨k, pos, _, rfl⟩, ?_⟩
      · intro t ht
        rcases ht with _ | ⟨_, _ | ⟨_, _ | ⟨_, _ | ⟨_, ht⟩⟩⟩⟩
        · exact ⟨by simp, by simp⟩
        · exact ⟨by simp, by simp⟩
        · exact ⟨hnsemi, hnend⟩
        · exact ⟨by simp, by simp⟩
        · cases ht
      · intro acc
        rw [parseArgs]
        rw [hpv]
        rfl
    · -- at least two arguments
      have h0 : format_args ((k, v) :: kv2 :: m3) =
          k.toList ++ ':' :: ' ' :: format_value v ++ ',' :: ' ' ::
            format_args (kv2 :: m3) := rfl
      have hfmt : format_args ((k, v) :: kv2 :: m3) ++ [')'] =
          k.toList ++ ':' :: ' ' ::
            (format_value v ++ ',' :: ' ' ::
              (format_args (kv2 :: m3) ++ [')'])) := by
        rw [h0]
        simp
      rw [hfmt, scan_key_chunk k _ pos hkv.1 hkv.2.1, scan_space_chunk]
      obtain ⟨pos2, vtok, hscan, hpv, hnsemi, hnend⟩ :=
        scan_value_chunk v (',' :: ' ' :: (format_args (kv2 :: m3) ++ [')']))
          _ hkv.2.2 (Or.inl rfl)
      rw [hscan, scan_comma_chunk, scan_space_chunk]
      obtain ⟨ts2, hts2, hgood2, hne2, hparse2⟩ :=
        ih _ (fun kv hm => hwf kv (List.mem_cons_of_mem _ hm))
          (by intro hcc; cases hcc)
      rw [hts2]
      refine ⟨_, rfl, ?_, ⟨k, pos, _, rfl⟩, ?_⟩
      · intro t ht
        rcases ht with _ | ⟨_, _ | ⟨_, _ | ⟨_, _ | ⟨_, ht⟩⟩⟩⟩
        · exact ⟨by simp, by simp⟩
        · exact ⟨by simp, by simp⟩
        · exact ⟨hnsemi, hnend⟩
        · exact ⟨by simp, by simp⟩
        · exact hgood2 t ht
      · intro acc
        rw [parseArgs]
        rw [hpv]
        exact hparse2 (acc.insert k v)

theorem strLt_asymm {a b : String} (h : strLt a b = true) :
    strLt b a = false :=
  charListLt_asymm _ _ h

theorem insert_append_of_lt {α : Type} (acc : Smap α) (k : String) (v : α)
    (h : ∀ kv ∈ acc, strLt kv.1 k = true) :
    Smap.insert acc k v = acc ++ [(k, v)] := by
  induction acc with
  | nil => rfl
  | cons hd tl ih =>
    obtain ⟨k2, v2⟩ := hd
    have hlt : strLt k2 k = true := h (k2, v2) (List.mem_cons_self _ _)
    have hf : strLt k k2 = false := strLt_asymm hlt
    have hne : k ≠ k2 := fun hEq => (strLt_ne hlt) hEq.symm
    simp only [Smap.insert, hf, Bool.false_eq_true, if_false, if_neg hne]
    rw [ih (fun kv hm => h kv (List.mem_cons_of_mem _ hm))]
    rfl

theorem foldl_insert_sorted {α : Type} :
    ∀ (m acc : Smap α), Smap.Sorted (acc ++ m) →
      m.foldl (fun a kv => Smap.insert a kv.1 kv.2) acc = acc ++ m := by
  intro m
  induction m with
  | nil =>
    intro acc _
    simp
  | cons kv m2 ih =>
    obtain ⟨k, v⟩ := kv
    intro acc h
    rw [List.foldl_cons]
    have hlt : ∀ kv2 ∈ acc, strLt kv2.1 k = true := by
      rw [Smap.Sorted, List.pairwise_append] at h
      exact fun kv2 hm => h.2.2 kv2 hm (k, v) (List.mem_cons_self _ _)
    rw [show Smap.insert acc k v = acc ++ [(k, v)] from
      insert_append_of_lt acc k v hlt]
    have h2 : Smap.Sorted ((acc ++ [(k, v)]) ++ m2) := by
      rw [List.append_assoc]
      simpa using h
    rw [ih (acc ++ [(k, v)]) h2]
    simp

theorem foldl_insert_self {α : Type} (m : Smap α) (h : Smap.Sorted m) :
    m.foldl (fun a kv => Smap.insert a kv.1 kv.2) ([] : Smap α) = m := by
  have := foldl_insert_sorted m [] (by simpa using h)
  simpa using this

/-- Well-formedness of one parsed argument entry: the key is a
non-keyword identifier and the value is reproducible by the wire
format. -/
def wfArgsEntry (kv : String × MiniValue) : Prop :=
  Tokenizer.ident_text kv.1.toList = true ∧
    Tokenizer.keywords.contains kv.1 = false ∧ wfValue kv.2 = true

theorem wfValue_parseNumberValue (l : List Char) :
    wfValue (parseNumberValue l) = true := by
  rw [parseNumberValue.eq_def]
  split <;> rfl

theorem parse_value_wf (t : Tokenizer.Token) (v : MiniValue)
    (hg : Tokenizer.GoodTok t) (h : parse_value t = some v) :
    wfValue v = true := by
  obtain ⟨ty, val, p⟩ := t
  cases ty
  case number =>
    injection h with h
    subst h
    exact wfValue_parseNumberValue val.toList
  case stringTok =>
    injection h with h
    subst h
    exact hg.2 rfl
  case keyword =>
    simp only [parse_value] at h
    split_ifs at h <;> (injection h with h; subst h) <;> rfl
  all_goals exact Option.noConfusion h

theorem parseArgs_wf_bounded :
    ∀ (n : Nat) (ts : List Tokenizer.Token) (acc m : Smap MiniValue),
      ts.length ≤ n → parseArgs ts acc = some m →
      (∀ t ∈ ts, Tokenizer.GoodTok t) → (∀ kv ∈ acc, wfArgsEntry kv) →
      Smap.Sorted acc →
      (∀ kv ∈ m, wfArgsEntry kv) ∧ Smap.Sorted m := by
  intro n
  induction n with
  | zero =>
    intro ts acc m hlen h hg ha hs
    rcases ts with _ | ⟨t1, ts2⟩
    · cases h
    · simp at hlen
  | succ n ih =>
    intro ts acc m hlen h hg ha hs
    rw [parseArgs.eq_def] at h
    split at h
    · rename_i key kpos cv cp vtok rest
      rcases hpv : parse_value vtok with _ | v <;> rw [hpv] at h
      · cases h
      · split at h
        · cases h
        · rename_i v2 heq
          injection heq with heq
          subst heq
          have hgood1 : Tokenizer.GoodTok
              ⟨Tokenizer.TokenType.identifier, key, kpos⟩ :=
            hg _ (List.mem_cons_self _ _)
          have hgoodv : Tokenizer.GoodTok vtok :=
            hg vtok (List.mem_cons_of_mem _ (List.mem_cons_of_mem _
              (List.mem_cons_self _ _)))
          have hkey := hgood1.1 rfl
          have hvwf := parse_value_wf vtok v hgoodv hpv
          have hentry : wfArgsEntry (key, v) := ⟨hkey.1, hkey.2, hvwf⟩
          have hacc2 : ∀ kv ∈ Smap.insert acc key v, wfArgsEntry kv := by
            intro kv hkv
            rcases Smap.mem_insert acc key v kv hkv with rfl | hkv2
            · exact hentry
            · exact ha kv hkv2
          have hsort2 : Smap.Sorted (Smap.insert acc key v) :=
            Smap.sorted_insert acc key v hs
          split at h
          · split_ifs at h
            injection h with h
            subst h
            exact ⟨hacc2, hsort2⟩
          · rename_i x2 x3 rest2
            have hlen2 : rest2.length ≤ n := by
              simp only [List.length_cons] at hlen
              omega
            exact ih rest2 (Smap.insert acc key v) m hlen2 h
              (fun t ht => hg t (by
                simp only [List.mem_cons]
                right
                right
                right
                exact Or.inr ht))
              hacc2 hsort2
          · cases h
    · cases h

theorem parseArgs_wf (ts : List Tokenizer.Token) (acc m : Smap MiniValue)
    (h : parseArgs ts acc = some m)
    (hg : ∀ t ∈ ts, Tokenizer.GoodTok t)
    (ha : ∀ kv ∈ acc, wfArgsEntry kv) (hs : Smap.Sorted acc) :
    (∀ kv ∈ m, wfArgsEntry kv) ∧ Smap.Sorted m :=
  parseArgs_wf_bounded ts.length ts acc m (le_refl _) h hg ha hs

/-- Well-formedness of a parsed command: the name is a non-keyword
identifier and the argument map is sorted with well-formed entries. -/
def wfCommand (c : ParsedCommand) : Prop :=
  Tokenizer.ident_text c.command_name.toList = true ∧
    Tokenizer.keywords.contains c.command_name = false ∧
    Smap.Sorted c.parameters ∧ ∀ kv ∈ c.parameters, wfArgsEntry kv

theorem parseCommandTokens_wf (ts : List Tokenizer.Token) (c : ParsedCommand)
    (hc : parseCommandTokens ts = c)
    (hg : ∀ t ∈ ts, Tokenizer.GoodTok t)
    (hv : c.valid = true) : wfCommand c := by
  rw [parseCommandTokens.eq_def] at hc
  split at hc
  · rename_i name npos ov op rest
    have hname := (hg _ (List.mem_cons_self _ _)).1 rfl
    split at hc
    · split_ifs at hc
      · subst hc
        exact ⟨hname.1, hname.2, List.Pairwise.nil,
          by intro kv hkv; cases hkv⟩
      · subst hc
        cases hv
    · split at hc
      · rename_i args hp
        subst hc
        have hrest : ∀ t ∈ rest, Tokenizer.GoodTok t := fun t ht =>
          hg t (List.mem_cons_of_mem _ (List.mem_cons_of_mem _ ht))
        have hwf := parseArgs_wf rest [] args hp hrest
          (by intro kv hkv; cases hkv) List.Pairwise.nil
        exact ⟨hname.1, hname.2, hwf.2, hwf.1⟩
      · subst hc
        cases hv
  · subst hc
    cases hv

theorem splitSemi_mem :
    ∀ (l seg : List Tokenizer.Token), seg ∈ splitSemi l →
      ∀ t ∈ seg, t ∈ l := by
  intro l
  induction l with
  | nil =>
    intro seg hseg t ht
    simp only [splitSemi, List.mem_singleton] at hseg
    subst hseg
    cases ht
  | cons hd tl ih =>
    intro seg hseg t ht
    rw [splitSemi] at hseg
    split_ifs at hseg
    · rcases List.mem_cons.mp hseg with rfl | h2
      · cases ht
      · exact List.mem_cons_of_mem _ (ih seg h2 t ht)
    · split at hseg
      · rename_i hsp
        rcases List.mem_singleton.mp hseg with rfl
        rcases List.mem_singleton.mp ht with rfl
        exact List.mem_cons_self _ _
      · rename_i seg1 segs hsp
        rcases List.mem_cons.mp hseg with rfl | h2
        · rcases List.mem_cons.mp ht with rfl | ht2
          · exact List.mem_cons_self _ _
          · exact List.mem_cons_of_mem _ (ih seg1
              (by rw [hsp]; exact List.mem_cons_self _ _) t ht2)
        · exact List.mem_cons_of_mem _ (ih seg
            (by rw [hsp]; exact List.mem_cons_of_mem _ h2) t ht)

theorem splitSemi_no_semi :
    ∀ (l : List Tokenizer.Token),
      (∀ t ∈ l, t.type ≠ Tokenizer.TokenType.semicolon) → l ≠ [] →
      splitSemi l = [l] := by
  intro l
  induction l with
  | nil =>
    intro _ h
    cases h rfl
  | cons hd tl ih =>
    intro hns _
    rw [splitSemi, if_neg (hns hd (List.mem_cons_self _ _))]
    rcases htl : tl with _ | ⟨t2, tl2⟩
    · rfl
    · rw [← htl,
        ih (fun t ht => hns t (List.mem_cons_of_mem _ ht)) (by rw [htl]; simp)]

theorem nonEnd_eq_self (ts : List Tokenizer.Token)
    (h : ∀ t ∈ ts, t.type ≠ Tokenizer.TokenType.endTok) :
    nonEndTokens ts = ts := by
  rw [nonEndTokens, List.filter_eq_self]
  exact fun t ht => decide_eq_true (h t ht)

theorem segments_tokens_good (input : String) (ts : List Tokenizer.Token)
    (h : ts ∈ segments input) : ∀ t ∈ ts, Tokenizer.GoodTok t := by
  intro t ht
  have h2 : ts ∈ splitSemi (nonEndTokens (Tokenizer.tokenize input)) :=
    List.mem_of_mem_filter h
  have h3 : t ∈ nonEndTokens (Tokenizer.tokenize input) :=
    splitSemi_mem _ ts h2 t ht
  have h4 : t ∈ Tokenizer.tokenize input := List.mem_of_mem_filter h3
  rw [Tokenizer.tokenize] at h4
  rcases List.mem_append.mp h4 with h5 | h5
  · exact Tokenizer.scan_good _ _ t h5
  · rcases List.mem_singleton.mp h5 with rfl
    exact Tokenizer.goodTok_other (by simp) (by simp)

open Tokenizer in
theorem scan_name_chunk (k : String) (rest : List Char) (pos : Nat)
    (hk : ident_text k.toList = true)
    (hnk : keywords.contains k = false) :
    scan (k.toList ++ '(' :: rest) pos =
      Token.mk TokenType.identifier k pos ::
        Token.mk TokenType.openParen "(" (pos + 1 + (k.toList.length - 1)) ::
        scan rest (pos + 1 + (k.toList.length - 1) + 1) := by
  rcases hkc : k.toList with _ | ⟨c, v⟩
  · rw [hkc] at hk
    cases hk
  · rw [hkc] at hk
    rw [ident_text] at hk
    rw [Bool.and_eq_true] at hk
    have hpar : HeadNot is_identifier_char ('(' :: rest) :=
      headNot_cons rest (by rfl)
    have hmk : String.mk (c :: v) = k := by
      rw [← hkc]
      exact strMk_toList k
    have h1 := scan_identifier_chunk c v ('(' :: rest) pos hk.1 hk.2 hpar
      (by rw [hmk]; exact hnk)
    rw [h1, hmk, scan_open_paren_chunk]
    have hlen : (c :: v).length - 1 = v.length := by simp
    rw [hlen]

open Tokenizer in
theorem nonEnd_append_end (ts : List Tokenizer.Token) (p : Nat)
    (h : ∀ t ∈ ts, t.type ≠ TokenType.endTok) :
    nonEndTokens (ts ++ [⟨TokenType.endTok, "", p⟩]) = ts := by
  rw [nonEndTokens, List.filter_append]
  have h1 : List.filter (fun t => decide (t.type ≠ TokenType.endTok))
      [(⟨TokenType.endTok, "", p⟩ : Token)] = [] := rfl
  rw [h1, List.append_nil]
  exact nonEnd_eq_self ts h

open Tokenizer in
theorem parse_format (c : ParsedCommand) (hv : c.valid = true)
    (hwf : wfCommand c) : parse_command (format_command c) = c := by
  obtain ⟨name, params, valid⟩ := c
  have hv2 : valid = true := hv
  subst hv2
  obtain ⟨hn1, hn2, hsorted, hentries⟩ := hwf
  have hlist : (format_command ⟨name, params, true⟩).toList =
      name.toList ++ '(' :: (format_args params ++ [')']) := rfl
  rcases params with _ | ⟨kv1, params2⟩
  · have hscan : scan (name.toList ++ '(' :: (format_args [] ++ [')'])) 0 =
        [⟨TokenType.identifier, name, 0⟩,
         ⟨TokenType.openParen, "(", 0 + 1 + (name.toList.length - 1)⟩,
         ⟨TokenType.closeParen, ")",
           0 + 1 + (name.toList.length - 1) + 1⟩] := by
      rw [show format_args [] ++ [')'] = [')'] from rfl]
      rw [scan_name_chunk name [')'] 0 hn1 hn2, scan_close_paren_chunk,
        scan_nil]
    have hnotend : ∀ t ∈ [(⟨TokenType.identifier, name, 0⟩ : Token),
        ⟨TokenType.openParen, "(", 0 + 1 + (name.toList.length - 1)⟩,
        ⟨TokenType.closeParen, ")", 0 + 1 + (name.toList.length - 1) + 1⟩],
        t.type ≠ TokenType.endTok := by
      intro t ht
      simp only [List.mem_cons, List.not_mem_nil, or_false] at ht
      rcases ht with rfl | rfl | rfl <;> simp
    have hnosemi : ∀ t ∈ [(⟨TokenType.identifier, name, 0⟩ : Token),
        ⟨TokenType.openParen, "(", 0 + 1 + (name.toList.length - 1)⟩,
        ⟨TokenType.closeParen, ")", 0 + 1 + (name.toList.length - 1) + 1⟩],
        t.type ≠ TokenType.semicolon := by
      intro t ht
      simp only [List.mem_cons, List.not_mem_nil, or_false] at ht
      rcases ht with rfl | rfl | rfl <;> simp
    have hseg : segments (format_command ⟨name, [], true⟩) =
        [[⟨TokenType.identifier, name, 0⟩,
          ⟨TokenType.openParen, "(", 0 + 1 + (name.toList.length - 1)⟩,
          ⟨TokenType.closeParen, ")",
            0 + 1 + (name.toList.length - 1) + 1⟩]] := by
      simp only [segments, Tokenizer.tokenize, hlist, hscan]
      rw [nonEnd_append_end _ _ hnotend,
        splitSemi_no_semi _ hnosemi (by simp)]
      rfl
    have hpc : parse_command (format_command ⟨name, [], true⟩) =
        parseCommandTokens
          [⟨TokenType.identifier, name, 0⟩,
           ⟨TokenType.openParen, "(", 0 + 1 + (name.toList.length - 1)⟩,
           ⟨TokenType.closeParen, ")",
             0 + 1 + (name.toList.length - 1) + 1⟩] := by
      simp only [parse_command, hseg]
    rw [hpc]
    rfl
  · have hne : (kv1 :: params2) ≠ ([] : Smap MiniValue) := by simp
    obtain ⟨ts2, hscan2, hgood2, hshape, hparse⟩ :=
      scan_format_args (kv1 :: params2)
        (0 + 1 + (name.toList.length - 1) + 1)
        (fun kv hkv => hentries kv hkv) hne
    obtain ⟨key, kpos, rest3, hshape⟩ := hshape
    have hscan : scan
        (name.toList ++ '(' :: (format_args (kv1 :: params2) ++ [')'])) 0 =
        ⟨TokenType.identifier, name, 0⟩ ::
          ⟨TokenType.openParen, "(", 0 + 1 + (name.toList.length - 1)⟩ ::
          ts2 := by
      rw [scan_name_chunk name _ 0 hn1 hn2, hscan2]
    have hfold : (kv1 :: params2).foldl
        (fun a kv => Smap.insert a kv.1 kv.2) [] = kv1 :: params2 :=
      foldl_insert_self _ hsorted
    have hparse2 : parseArgs ts2 [] = some (kv1 :: params2) := by
      rw [hparse [], hfold]
    have hnotend : ∀ t ∈ (⟨TokenType.identifier, name, 0⟩ ::
        ⟨TokenType.openParen, "(", 0 + 1 + (name.toList.length - 1)⟩ ::
        ts2 : List Token), t.type ≠ TokenType.endTok := by
      intro t ht
      rcases List.mem_cons.mp ht with rfl | ht2
      · simp
      rcases List.mem_cons.mp ht2 with rfl | ht3
      · simp
      · exact (hgood2 t ht3).2
    have hnosemi : ∀ t ∈ (⟨TokenType.identifier, name, 0⟩ ::
        ⟨TokenType.openParen, "(", 0 + 1 + (name.toList.length - 1)⟩ ::
        ts2 : List Token), t.type ≠ TokenType.semicolon := by
      intro t ht
      rcases List.mem_cons.mp ht with rfl | ht2
      · simp
      rcases List.mem_cons.mp ht2 with rfl | ht3
      · simp
      · exact (hgood2 t ht3).1
    have hseg : segments (format_command ⟨name, kv1 :: params2, true⟩) =
        [⟨TokenType.identifier, name, 0⟩ ::
          ⟨TokenType.openParen, "(", 0 + 1 + (name.toList.length - 1)⟩ ::
          ts2] := by
      simp only [segments, Tokenizer.tokenize, hlist, hscan]
      rw [nonEnd_append_end _ _ hnotend,
        splitSemi_no_semi _ hnosemi (by simp)]
      rfl
    have hfinal : parseCommandTokens
        (⟨TokenType.identifier, name, 0⟩ ::
          ⟨TokenType.openParen, "(", 0 + 1 + (name.toList.length - 1)⟩ ::
          ts2) = ⟨name, kv1 :: params2, true⟩ := by
      subst hshape
      have h0 : parseCommandTokens
          (⟨TokenType.identifier, name, 0⟩ ::
            ⟨TokenType.openParen, "(", 0 + 1 + (name.toList.length - 1)⟩ ::
            ⟨TokenType.identifier, key, kpos⟩ :: rest3) =
          (match parseArgs (⟨TokenType.identifier, key, kpos⟩ :: rest3) []
              with
            | some args => (⟨name, args, true⟩ : ParsedCommand)
            | none => ⟨name, [], false⟩) := rfl
      rw [h0, hparse2]
    have hpc : parse_command (format_command ⟨name, kv1 :: params2, true⟩) =
        parseCommandTokens
          (⟨TokenType.identifier, name, 0⟩ ::
            ⟨TokenType.openParen, "(", 0 + 1 + (name.toList.length - 1)⟩ ::
            ts2) := by
      simp only [parse_command, hseg]
    rw [hpc, hfinal]

theorem parse_command_wf (input : String)
    (hv : (parse_command input).valid = true) :
    wfCommand (parse_command input) := by
  rcases hseg : segments input with _ | ⟨ts, rest⟩
  · rw [parse_command, hseg] at hv
    cases hv
  · rcases rest with _ | ⟨ts2, rest2⟩
    · have hpc : parse_command input = parseCommandTokens ts := by
        rw [parse_command, hseg]
      rw [hpc] at hv ⊢
      exact parseCommandTokens_wf ts _ rfl
        (segments_tokens_good input ts
          (by rw [hseg]; exact List.mem_singleton.mpr rfl)) hv
    · rw [parse_command, hseg] at hv
      cases hv

/-- C6: for every syntactically valid command text — one whose parse
yields a structured command with `valid = true` — formatting the parsed
structured command back to command text and re-parsing that text yields
a structured command equal to the original: same name, same argument
mapping, `valid = true` (round-trip). -/
theorem parse_format_roundtrip (input : String)
    (hv : (parse_command input).valid = true) :
    parse_command (format_command (parse_command input)) =
      parse_command input :=
  parse_format (parse_command input) hv (parse_command_wf input hv)

theorem parse_format_roundtrip_witness :
    (parse_command "create_element(type: \"circle\", name: \"c1\", x: 1.5)").valid
        = true ∧
      parse_command (format_command
          (parse_command
            "create_element(type: \"circle\", name: \"c1\", x: 1.5)")) =
        parse_command
          "create_element(type: \"circle\", name: \"c1\", x: 1.5)" :=
  ⟨by decide, parse_format_roundtrip
    "create_element(type: \"circle\", name: \"c1\", x: 1.5)" (by decide)⟩

/-- C9: for every name not currently registered, `get_command` returns
a null handler (`none`) — and for every name, `has_command` is true
exactly when `get_command` returns a non-null handler. -/
theorem get_command_none_of_not_has (r : CommandRegistry) (name : String) :
    (r.has_command name = false → r.get_command name = none) ∧
      (r.has_command name = true ↔ (r.get_command name).isSome = true) := by
  have h := Smap.contains_iff_find_isSome r.commands name
  constructor
  · intro hfalse
    rcases hopt : r.commands.find name with _ | c
    · simp [CommandRegistry.get_command, hopt]
    · exfalso
      have hc : Smap.contains r.commands name = true := by
        rw [h]
        show (Smap.find r.commands name).isSome = true
        rw [hopt]
        rfl
      simp only [CommandRegistry.has_command, hc] at hfalse
      exact Bool.noConfusion hfalse
  · exact h

/-- C9 witness: a registry holding one handler named "create_element"
has no handler named "nope". -/
theorem get_command_none_of_not_has_witness :
    (CommandRegistry.emptyRegistry.register_command
        ⟨"create_element", "Create a new scene element", [],
          fun _ ctx => (⟨true, "", MiniValue.null⟩, ctx)⟩).has_command
        "nope" = false ∧
      (CommandRegistry.emptyRegistry.register_command
          ⟨"create_element", "Create a new scene element", [],
            fun _ ctx => (⟨true, "", MiniValue.null⟩, ctx)⟩).get_command
          "nope" = none :=
  ⟨rfl,
    (get_command_none_of_not_has _ "nope").1 rfl⟩

/-- C3: over any sequence of registrations into a fresh registry, a
lookup returns the most recently registered handler of that name
(last write wins), and the name listing afterwards holds each name at
most once and holds exactly the registered names: a name is listed
precisely when some registration bore it. -/
theorem register_last_wins (cs : List SceneCommand) (n : String) :
    (register_sequence cs).get_command n =
        cs.reverse.find? (fun c => c.get_name == n) ∧
      (register_sequence cs).get_all_commands.Nodup ∧
      (n ∈ (register_sequence cs).get_all_commands ↔
        n ∈ cs.map SceneCommand.get_name) := by
  have hA : (register_sequence cs).get_command n =
      cs.reverse.find? (fun c => c.get_name == n) := by
    induction cs using List.reverseRecOn with
    | nil => rfl
    | append_singleton cs c ih =>
      rw [register_sequence_append, List.reverse_append]
      simp only [List.reverse_singleton, List.singleton_append, List.find?_cons]
      by_cases hc : c.get_name = n
      · subst hc
        simp only [beq_self_eq_true]
        exact Smap.find_insert_self _ _ _
      · have : (c.get_name == n) = false := by
          simp [hc]
        rw [this]
        rw [show (register_sequence cs).register_command c =
            ⟨Smap.insert (register_sequence cs).commands c.get_name c⟩ from rfl]
        show Smap.find _ n = _
        rw [Smap.find_insert_ne _ _ _ _ (fun hn => hc hn.symm)]
        exact ih
  refine ⟨hA, ?_, ?_⟩
  · have hs : Smap.Sorted (register_sequence cs).commands :=
      sorted_register_fold cs CommandRegistry.emptyRegistry (by
        simp [CommandRegistry.emptyRegistry, Smap.Sorted])
    have hp : List.Pairwise (fun a b => strLt a b = true)
        (register_sequence cs).commands.keys := by
      rw [Smap.keys, List.pairwise_map]
      exact hs
    exact hp.imp fun hab => strLt_ne hab
  · rw [show ((register_sequence cs).get_all_commands : List String) =
      (register_sequence cs).commands.keys from rfl]
    rw [Smap.mem_keys_iff_find_isSome]
    rw [show Smap.find (register_sequence cs).commands n =
        (register_sequence cs).get_command n from rfl, hA]
    rw [List.find?_isSome]
    constructor
    · rintro ⟨c, hc, hp⟩
      exact List.mem_map.mpr ⟨c, List.mem_reverse.mp hc, eq_of_beq hp⟩
    · intro hm
      rcases List.mem_map.mp hm with ⟨c, hc, rfl⟩
      exact ⟨c, List.mem_reverse.mpr hc, by simp⟩

/-- C7: `matches_type v "any"` is true for every value; for any other
type name, matching holds exactly when the value's tag name equals it. -/
theorem matches_type_spec (v : MiniValue) :
    ValueConverter.matches_type v "any" = true ∧
      ∀ t : String, t ≠ "any" →
        (ValueConverter.matches_type v t = true ↔
          ValueConverter.get_type_name v = t) := by
  constructor
  · simp [ValueConverter.matches_type]
  · intro t ht
    simp [ValueConverter.matches_type, ht]

/-- C7 witness: the null value matches "any" and matches "null" exactly
because its tag name is "null". -/
theorem matches_type_spec_witness :
    ("null" ≠ "any") ∧
      (ValueConverter.matches_type MiniValue.null "null" = true ↔
        ValueConverter.get_type_name MiniValue.null = "null") :=
  ⟨by decide, (matches_type_spec MiniValue.null).2 "null" (by decide)⟩

/-- C10: `Vector4::normalize` never divides by zero — the length is
never negative, the vector is divided by its length only when that
length is positive, and a zero length returns the vector unchanged. -/
theorem normalize_no_div_by_zero (v : Vector4) :
    0 ≤ v.length ∧
      (v.length > 0 → v.normalize = v.divScalar v.length) ∧
      (v.length = 0 → v.normalize = v) := by
  refine ⟨Real.sqrt_nonneg _, ?_, ?_⟩
  · intro h
    simp [Vector4.normalize, h]
  · intro h
    have : ¬v.length > 0 := by
      rw [h]
      exact lt_irrefl 0
    simp [Vector4.normalize, this]

/-- C10 witness: the zero vector has length zero and normalizes to
itself. -/
theorem normalize_no_div_by_zero_witness :
    Vector4.length ⟨0, 0, 0, 0⟩ = 0 ∧
      Vector4.normalize ⟨0, 0, 0, 0⟩ = (⟨0, 0, 0, 0⟩ : Vector4) := by
  have hlen : Vector4.length ⟨0, 0, 0, 0⟩ = 0 := by
    simp [Vector4.length, Vector4.lengthSquared]
  exact ⟨hlen, (normalize_no_div_by_zero ⟨0, 0, 0, 0⟩).2.2 hlen⟩

end Krayon
